import Mathlib

/-!
# Verification of the `baum` tree library

This file gives a shallow embedding of the `baum` Rust library
(`src/lib.rs`, `src/parser.rs`): the recursive `Node` data type, its
`Display` rendering, the binary codec (`serialize` / `deserialize_from`),
the text tokenizer and recursive-descent parser, the width-aware pretty
printer, and the leaf/array conversions.  Byte values are modelled as
naturals (a Rust `u8` is a natural below 256, a `u64` length is a natural
below `2 ^ 64`); streams are modelled as lists of naturals, and fallible
operations return `Except`.
-/

set_option maxHeartbeats 2000000

namespace Baum

/-- The tree data type: a node is either a leaf holding raw bytes or an
inner node holding an ordered list of children (`enum Node` in
`src/lib.rs`). -/
inductive Node where
  | Leaf (bytes : List Nat) : Node
  | Inner (nodes : List Node) : Node

mutual

/-- Well-formedness of an embedded node: every leaf byte fits in a `u8`
and every length fits in a `u64`.  These bounds are enforced by the Rust
types `Vec<u8>` / `Vec<Node>` and are therefore hypotheses of the claims
quantifying over "every Node". -/
def Node.wfb : Node → Bool
  | .Leaf bs => decide (bs.length < 2 ^ 64) && bs.all (fun b => decide (b < 256))
  | .Inner cs => decide (cs.length < 2 ^ 64) && Node.wfbList cs

/-- Well-formedness of a list of nodes. -/
def Node.wfbList : List Node → Bool
  | [] => true
  | c :: cs => c.wfb && Node.wfbList cs

end

/-- The hex digit character for a nibble, as produced by Rust's `{:02x}`
formatting (lowercase).  Only values below 16 occur (the two nibbles of a
`u8`); the `% 10` / `% 16` are identities there and merely keep the
function's range inside the ASCII block for every input. -/
def hexDigitChar (n : Nat) : Char :=
  if n < 10 then Char.ofNat (48 + n % 10) else Char.ofNat (87 + n % 16)

/-- The two lowercase hex digits of a byte, as produced by `{:02x}`. -/
def byteHex (b : Nat) : List Char :=
  [hexDigitChar (b / 16), hexDigitChar (b % 16)]

/-- The digits-and-separators part of a leaf's `Display` rendering: each
byte as two hex digits, bytes after the first preceded by `_`
(`impl Display for Node`, leaf arm). -/
def dispLeafGo : List Nat → Bool → List Char
  | [], _ => []
  | b :: bs, first => (if first then [] else ['_']) ++ byteHex b ++ dispLeafGo bs false

mutual

/-- The canonical single-line `Display` rendering of a node
(`impl std::fmt::Display for Node` in `src/lib.rs`). -/
def Node.display : Node → List Char
  | .Leaf bs => '0' :: 'x' :: dispLeafGo bs true
  | .Inner cs => '(' :: (Node.dispChildren cs true ++ [')'])

/-- The children part of an inner node's `Display` rendering: children
after the first preceded by a single space. -/
def Node.dispChildren : List Node → Bool → List Char
  | [], _ => []
  | c :: cs, first =>
    (if first then [] else [' ']) ++ c.display ++ Node.dispChildren cs false

end

mutual

/-- Flat width of a node (`Node::_width` in `src/lib.rs`);
`saturating_sub 1` is Nat subtraction. -/
def Node._width : Node → Nat
  | .Leaf bs => 2 + 2 * bs.length + (bs.length - 1)
  | .Inner cs => 2 + Node.widthSum cs + (cs.length - 1)

/-- Sum of the flat widths of a list of nodes. -/
def Node.widthSum : List Node → Nat
  | [] => 0
  | c :: cs => c._width + Node.widthSum cs

end

/-- The `k` little-endian base-256 digits of `n` (`to_le_bytes` for
`k = 8`). -/
def leBytes : Nat → Nat → List Nat
  | 0, _ => []
  | k + 1, n => n % 256 :: leBytes k (n / 256)

/-- Recombine little-endian base-256 digits (`u64::from_le_bytes`). -/
def fromLe : List Nat → Nat
  | [] => 0
  | b :: bs => b + 256 * fromLe bs

/-- The 8 little-endian bytes of a `u64` value (`(len as u64).to_le_bytes()`). -/
def u64le (n : Nat) : List Nat := leBytes 8 n

/-- The 5 magic bytes, ASCII `BAUM1`. -/
def magicBytes : List Nat := [66, 65, 85, 77, 49]

mutual

/-- The body of the binary encoding of one node (`Node::_serialize`):
a tag byte, an 8-byte little-endian length, then the payload. -/
def Node._serialize : Node → List Nat
  | .Leaf bs => 0 :: (u64le bs.length ++ bs)
  | .Inner cs => 1 :: (u64le cs.length ++ Node.serializeList cs)

/-- Concatenated encodings of a list of nodes. -/
def Node.serializeList : List Node → List Nat
  | [] => []
  | c :: cs => c._serialize ++ Node.serializeList cs

end

/-- Full binary encoding: magic prefix plus one node record
(`Node::serialize`). -/
def Node.serialize (n : Node) : List Nat := magicBytes ++ n._serialize

/-- Binary-decode errors (`enum Error` in `src/lib.rs`); the payload of
the wrapped I/O error is irrelevant to the embedding. -/
inductive Error where
  | IOError : Error
  | InvalidMagicNumber : Error
  | InvalidNodeType : Error
  | AdditionalBytes : Error
deriving DecidableEq

/-- `read_exact` on a byte-slice reader: take `k` bytes from the front or
fail with a wrapped I/O error (`UnexpectedEof`). -/
def readExactN (k : Nat) (l : List Nat) : Except Error (List Nat × List Nat) :=
  if k ≤ l.length then .ok (l.take k, l.drop k) else .error .IOError

mutual

/-- One recursive record of the binary decoding (`Node::_deserialize_from`).
The `fuel` argument only forces termination: the wrapper below always
supplies more fuel than the input length, and every recursive step
consumes at least one input byte, so the fuel branch is unreachable. -/
def Node._deserialize_from : Nat → List Nat → Except Error (Node × List Nat)
  | 0, _ => .error .IOError
  | fuel + 1, input =>
    match input with
    | [] => .error .IOError
    | t :: rest =>
      if t = 0 then
        match readExactN 8 rest with
        | .error e => .error e
        | .ok (lb, rest2) =>
          match readExactN (fromLe lb) rest2 with
          | .error e => .error e
          | .ok (bs, rest3) => .ok (.Leaf bs, rest3)
      else if t = 1 then
        match readExactN 8 rest with
        | .error e => .error e
        | .ok (lb, rest2) =>
          match Node.deserializeChildren fuel (fromLe lb) rest2 with
          | .error e => .error e
          | .ok (cs, rest3) => .ok (.Inner cs, rest3)
      else .error .InvalidNodeType
termination_by fuel _ => (fuel, 0)

/-- Decode `k` consecutive node records (the loop in the inner arm of
`Node::_deserialize_from`). -/
def Node.deserializeChildren : Nat → Nat → List Nat → Except Error (List Node × List Nat)
  | _, 0, input => .ok ([], input)
  | fuel, k + 1, input =>
    match Node._deserialize_from fuel input with
    | .error e => .error e
    | .ok (n, rest) =>
      match Node.deserializeChildren fuel k rest with
      | .error e => .error e
      | .ok (ns, rest2) => .ok (n :: ns, rest2)
termination_by fuel k _ => (fuel, k + 1)

end

/-- Full binary decoding (`Node::deserialize_from` via `Node::deserialize`):
read and check the 5 magic bytes, decode exactly one record, then require
the input to be fully consumed. -/
def Node.deserialize (input : List Nat) : Except Error Node :=
  match readExactN 5 input with
  | .error e => .error e
  | .ok (m, rest) =>
    if m = magicBytes then
      match Node._deserialize_from (rest.length + 1) rest with
      | .error e => .error e
      | .ok (n, rest2) => if rest2.isEmpty then .ok n else .error .AdditionalBytes
    else .error .InvalidMagicNumber

/-- Tokens of the text format (`enum Token` in `src/parser.rs`). -/
inductive Token where
  | LParen : Token
  | RParen : Token
  | Bytes (bytes : List Nat) : Token
deriving DecidableEq

/-- `char::to_digit(16)`: the value of a hex digit, accepting `0-9`,
`a-f` and `A-F`. -/
def hexVal (c : Char) : Option Nat :=
  if '0' ≤ c ∧ c ≤ '9' then some (c.toNat - 48)
  else if 'a' ≤ c ∧ c ≤ 'f' then some (c.toNat - 87)
  else if 'A' ≤ c ∧ c ≤ 'F' then some (c.toNat - 55)
  else none

/-- Rust `char::is_ascii_whitespace`: space, tab, newline, form feed,
carriage return. -/
def isAsciiWhitespace (c : Char) : Bool :=
  c == ' ' || c == '\t' || c == '\n' || c == Char.ofNat 12 || c == '\r'

/-- The hex-literal scanning loop of `tokenize`: consume a maximal run of
hex digits and underscores, pairing digits left-to-right into bytes;
`pend` holds the value of an unpaired first digit. -/
def scanHex : List Char → List Nat → Option Nat → List Nat × Option Nat × List Char
  | [], acc, pend => (acc, pend, [])
  | c :: cs, acc, pend =>
    match hexVal c with
    | some d =>
      match pend with
      | none => scanHex cs acc (some d)
      | some f => scanHex cs (acc ++ [16 * f + d]) none
    | none => if c = '_' then scanHex cs acc pend else (acc, pend, c :: cs)

/-- The tokenizer (`tokenize` in `src/parser.rs`). -/
def tokenize : List Char → Except String (List Token)
  | [] => .ok []
  | c :: cs =>
    if c = '(' then (tokenize cs).map (fun ts => Token.LParen :: ts)
    else if c = ')' then (tokenize cs).map (fun ts => Token.RParen :: ts)
    else if c = '0' then
      match cs with
      | 'x' :: cs2 =>
        match h : scanHex cs2 [] none with
        | (ret, pend, rest) =>
          if pend.isSome then .error "byte sequence incomplete"
          else (tokenize rest).map (fun ts => Token.Bytes ret :: ts)
      | _ => .error "Expected 'x'!"
    else if isAsciiWhitespace c then tokenize cs
    else .error "Unexpected character!"
termination_by l => l.length
decreasing_by
  all_goals
    first
      | (simp; done)
      | (simp; omega)
      | (have hsc : ∀ (l : List Char) (acc : List Nat) (pend : Option Nat),
             (scanHex l acc pend).2.2.length ≤ l.length := by
           intro l
           induction l with
           | nil => intro acc pend; simp [scanHex]
           | cons a l2 ih =>
             intro acc pend
             rw [scanHex]
             cases hv : hexVal a with
             | none =>
               simp only [hv]
               by_cases ha : a = '_'
               · simp only [ha, if_pos rfl]
                 exact Nat.le_succ_of_le (ih acc pend)
               · simp [ha]
             | some d =>
               simp only [hv]
               cases pend with
               | none => exact Nat.le_succ_of_le (ih acc (some d))
               | some f => exact Nat.le_succ_of_le (ih (acc ++ [16 * f + d]) none)
         have := hsc cs2 [] none
         rw [h] at this
         simp at this ⊢
         omega)

mutual

/-- One node of the recursive-descent parse (`parse_node` in
`src/parser.rs`).  The fuel argument only forces termination: the
wrapper supplies more fuel than the token count, and every call consumes
at least one token per fuel unit, so the fuel branch is unreachable. -/
def parseNode : Nat → List Token → Except String (Node × List Token)
  | 0, _ => .error "Parse Error"
  | _ + 1, [] => .error "Parse Error"
  | _ + 1, Token.Bytes b :: ts => .ok (.Leaf b, ts)
  | fuel + 1, Token.LParen :: ts =>
    match parseChildren fuel ts with
    | .error e => .error e
    | .ok (cs, ts2) => .ok (.Inner cs, ts2)
  | _ + 1, Token.RParen :: _ => .error "Parse Error"

/-- The child-collecting loop of `parse_inner_node`: peek, consume a
closing `RParen` and stop, or parse one more child. -/
def parseChildren : Nat → List Token → Except String (List Node × List Token)
  | 0, _ => .error "Parse Error"
  | fuel + 1, ts =>
    if ts.head? = some Token.RParen then .ok ([], ts.tail)
    else
      match parseNode fuel ts with
      | .error e => .error e
      | .ok (n, ts2) =>
        match parseChildren fuel ts2 with
        | .error e => .error e
        | .ok (ns, ts3) => .ok (n :: ns, ts3)

end

/-- Top-level token-list parse (`parse` in `src/parser.rs`): one node,
then the token stream must be exhausted. -/
def parseTokens (tokens : List Token) : Except String Node :=
  match parseNode (tokens.length + 1) tokens with
  | .error e => .error e
  | .ok (n, []) => .ok n
  | .ok (_, _ :: _) => .error "Unexpected characters after node."

/-- Result of a full text parse (`enum ParseResult` in `src/parser.rs`). -/
inductive ParseResult where
  | LexingError (msg : String) : ParseResult
  | ParsingError (msg : String) : ParseResult
  | Ok (node : Node) : ParseResult

/-- `ParseResult::parse`: tokenize, then parse; tokenizer failures become
`LexingError`, parser failures `ParsingError`. -/
def ParseResult.parse (s : List Char) : ParseResult :=
  match tokenize s with
  | .error e => .LexingError e
  | .ok toks =>
    match parseTokens toks with
    | .error e => .ParsingError e
    | .ok n => .Ok n

/-- `Node::parse`. -/
def Node.parse (s : List Char) : ParseResult := ParseResult.parse s

/-- The byte-emitting loop of the leaf arm of `Node::_pretty_print`:
`pos` is the column accounting variable, `first` is `idx == 0`.  Before
each byte, if `pos + 3` would exceed `max`, break to a new line indented
by `indent + 2` and reset `pos`; otherwise emit a `_` separator unless
this is the first byte. -/
def ppLeafGo (max indent : Nat) : List Nat → Nat → Bool → List Char
  | [], _, _ => []
  | b :: bs, pos, first =>
    if max < pos + 3 then
      '\n' :: (List.replicate (indent + 2) ' ' ++ (byteHex b ++ ppLeafGo max indent bs (indent + 4) false))
    else if first then
      byteHex b ++ ppLeafGo max indent bs (pos + 2) false
    else
      '_' :: (byteHex b ++ ppLeafGo max indent bs (pos + 3) false)

mutual

/-- The width-aware pretty printer (`Node::_pretty_print` in
`src/lib.rs`). -/
def Node._pretty_print (max indent : Nat) : Node → List Char
  | .Leaf bs => '0' :: 'x' :: ppLeafGo max indent bs (indent + 2) true
  | .Inner cs =>
    if indent + (Node.Inner cs)._width ≤ max then
      '(' :: (Node.ppFlat max indent cs true ++ [')'])
    else
      '(' :: '\n' :: (Node.ppMulti max indent cs ++ (List.replicate indent ' ' ++ [')']))

/-- The flat (single-line) child loop of the inner arm: children after
the first preceded by a single space, same indentation. -/
def Node.ppFlat (max indent : Nat) : List Node → Bool → List Char
  | [], _ => []
  | c :: cs, first =>
    (if first then [] else [' ']) ++
      (c._pretty_print max indent ++ Node.ppFlat max indent cs false)

/-- The multi-line child loop of the inner arm: each child on its own
line indented by `indent + 4`. -/
def Node.ppMulti (max indent : Nat) : List Node → List Char
  | [] => []
  | c :: cs =>
    List.replicate (indent + 4) ' ' ++
      (c._pretty_print max (indent + 4) ++ ('\n' :: Node.ppMulti max indent cs))

end

/-- `Node::pretty_print`: render at indentation 0. -/
def Node.pretty_print (n : Node) (max_width : Nat) : List Char :=
  n._pretty_print max_width 0

/-- Number of newline characters in a rendering; the claims' "number of
lines" is this plus one. -/
def countNL (l : List Char) : Nat := l.count '\n'

/-- Leaf/array conversion errors (`enum TryIntoError`). -/
inductive TryIntoError where
  | ExpectedLeaf : TryIntoError
  | LengthMismatch : TryIntoError
deriving DecidableEq

/-- Viewing a node as a byte slice
(`impl TryFrom<&Node> for &[u8]`): fails on inner nodes. -/
def Node.tryIntoBytes : Node → Except TryIntoError (List Nat)
  | .Inner _ => .error .ExpectedLeaf
  | .Leaf bs => .ok bs

/-- `Node::try_into_array::<&[u8; k]>`: view as a byte slice, then
convert to a fixed-size array, which succeeds exactly when the length
matches. -/
def Node.try_into_array (k : Nat) (n : Node) : Except TryIntoError (List Nat) :=
  match n.tryIntoBytes with
  | .error e => .error e
  | .ok bs => if bs.length = k then .ok bs else .error .LengthMismatch

mutual

/-- Number of nodes of a tree; used to bound the fuel of the decoder. -/
def Node.numNodes : Node → Nat
  | .Leaf _ => 1
  | .Inner cs => 1 + Node.numNodesList cs

/-- Total number of nodes of a list of trees. -/
def Node.numNodesList : List Node → Nat
  | [] => 0
  | c :: cs => c.numNodes + Node.numNodesList cs

end

mutual

/-- The token sequence produced by tokenizing a node's canonical
rendering: one `Bytes` token per leaf, parens around children. -/
def Node.displayTokens : Node → List Token
  | .Leaf bs => [Token.Bytes bs]
  | .Inner cs => Token.LParen :: (Node.displayTokensList cs ++ [Token.RParen])

/-- Concatenated token sequences of a list of nodes. -/
def Node.displayTokensList : List Node → List Token
  | [] => []
  | c :: cs => c.displayTokens ++ Node.displayTokensList cs

end

mutual

/-- A fuel bound sufficient for `parseNode` to parse this node's token
sequence. -/
def Node.parseFuel : Node → Nat
  | .Leaf _ => 1
  | .Inner cs => 1 + Node.parseFuelList cs

/-- A fuel bound sufficient for `parseChildren` to parse these nodes'
token sequences followed by the closing paren. -/
def Node.parseFuelList : List Node → Nat
  | [] => 1
  | c :: cs => 1 + max c.parseFuel (Node.parseFuelList cs)

end

/-- Either-case hex letters swapped (`a ↔ A`, ..., `f ↔ F`); every
other character is unchanged. -/
def swapHexCase (c : Char) : Char :=
  if c = 'a' then 'A' else if c = 'b' then 'B' else if c = 'c' then 'C'
  else if c = 'd' then 'D' else if c = 'e' then 'E' else if c = 'f' then 'F'
  else if c = 'A' then 'a' else if c = 'B' then 'b' else if c = 'C' then 'c'
  else if c = 'D' then 'd' else if c = 'E' then 'e' else if c = 'F' then 'f'
  else c

/-- A character that always ends a token of the text grammar: a paren or
ASCII whitespace. -/
def isDelimChar (c : Char) : Bool := c == '(' || c == ')' || isAsciiWhitespace c

/-- The list is empty or ends in a delimiter, so tokenizing it can never
continue a token into appended text. -/
def selfDelimB (l : List Char) : Bool :=
  match l.getLast? with
  | none => true
  | some c => isDelimChar c

/-- The list is empty or starts with a character that stops a
hex-literal scan (neither a hex digit nor an underscore). -/
def sepHeadB : List Char → Bool
  | [] => true
  | c :: _ => (hexVal c).isNone && c != '_'

/-- A character a hex-literal scan consumes: hex digit or underscore. -/
def isHexU (c : Char) : Bool := (hexVal c).isSome || c == '_'

/-- Number of hex digits (underscores excluded) in a literal body. -/
def hexDigitCount (ds : List Char) : Nat := (ds.filter (fun c => (hexVal c).isSome)).length

mutual

/-- No line break occurs inside any leaf literal when pretty-printing at
width `max` and indentation `indent`: leaves emit no newline, flat inner
nodes are rendered entirely on one line, and multi-line inner nodes
recurse at `indent + 4`. -/
def Node.wrapFreeB (max indent : Nat) : Node → Bool
  | .Leaf bs => countNL (ppLeafGo max indent bs (indent + 2) true) == 0
  | .Inner cs =>
    if indent + (Node.Inner cs)._width ≤ max then true
    else Node.wrapFreeBList max (indent + 4) cs

/-- `Node.wrapFreeB` for every node of a list. -/
def Node.wrapFreeBList (max indent : Nat) : List Node → Bool
  | [] => true
  | c :: cs => c.wrapFreeB max indent && Node.wrapFreeBList max indent cs

end

/-! ## Basic infrastructure -/

/-- Structural induction for `Node` giving the inductive hypothesis for
every member of an inner node's child list. -/
def Node.recMem {P : Node → Prop} (hleaf : ∀ bs, P (Node.Leaf bs))
    (hinner : ∀ cs, (∀ c ∈ cs, P c) → P (Node.Inner cs)) : ∀ n, P n
  | Node.Leaf bs => hleaf bs
  | Node.Inner cs => hinner cs (fun c hc => Node.recMem hleaf hinner c)
termination_by n => sizeOf n
decreasing_by
  have := List.sizeOf_lt_of_mem hc
  simp
  omega

theorem wfbList_iff (cs : List Node) :
    Node.wfbList cs = true ↔ ∀ c ∈ cs, c.wfb = true := by
  induction cs with
  | nil => simp [Node.wfbList]
  | cons c cs ih => simp [Node.wfbList, ih]

theorem wfb_leaf (bs : List Nat) :
    (Node.Leaf bs).wfb = true ↔ bs.length < 2 ^ 64 ∧ ∀ b ∈ bs, b < 256 := by
  simp [Node.wfb]

theorem wfb_inner (cs : List Node) :
    (Node.Inner cs).wfb = true ↔ cs.length < 2 ^ 64 ∧ ∀ c ∈ cs, c.wfb = true := by
  simp [Node.wfb, wfbList_iff]

/-! ## Little-endian length encoding -/

theorem leBytes_length : ∀ (k n : Nat), (leBytes k n).length = k
  | 0, _ => rfl
  | k + 1, n => by simp [leBytes, leBytes_length k]

theorem fromLe_leBytes : ∀ (k n : Nat), n < 256 ^ k → fromLe (leBytes k n) = n
  | 0, n, h => by
    simp [pow_zero] at h
    simp [leBytes, fromLe, h]
  | k + 1, n, h => by
    have hdiv : n / 256 < 256 ^ k := by
      rw [Nat.div_lt_iff_lt_mul (by norm_num : 0 < 256)]
      calc n < 256 ^ (k + 1) := h
        _ = 256 ^ k * 256 := by ring
    simp only [leBytes, fromLe, fromLe_leBytes k (n / 256) hdiv]
    exact Nat.mod_add_div n 256

theorem u64le_length (n : Nat) : (u64le n).length = 8 := leBytes_length 8 n

theorem fromLe_u64le (n : Nat) (h : n < 2 ^ 64) : fromLe (u64le n) = n :=
  fromLe_leBytes 8 n (by norm_num at h ⊢; omega)

theorem readExactN_append (a b : List Nat) : readExactN a.length (a ++ b) = .ok (a, b) := by
  simp [readExactN]

/-! ## Binary decoding of an encoded node -/

@[simp] theorem numNodes_leaf (bs : List Nat) : (Node.Leaf bs).numNodes = 1 := by
  rw [Node.numNodes]

@[simp] theorem numNodes_inner (cs : List Node) :
    (Node.Inner cs).numNodes = 1 + Node.numNodesList cs := by
  rw [Node.numNodes]

theorem numNodes_pos (n : Node) : 1 ≤ n.numNodes := by
  cases n <;> simp

theorem numNodes_le_serialize_length (n : Node) :
    n.numNodes ≤ n._serialize.length := by
  induction n using Node.recMem with
  | hleaf bs => simp [Node.numNodes, Node._serialize]
  | hinner cs ih =>
    have hlist : ∀ cs2 : List Node, (∀ c ∈ cs2, c.numNodes ≤ c._serialize.length) →
        Node.numNodesList cs2 ≤ (Node.serializeList cs2).length := by
      intro cs2
      induction cs2 with
      | nil => simp [Node.numNodesList, Node.serializeList]
      | cons c cs2 ih2 =>
        intro h
        have h1 := h c (by simp)
        have h2 := ih2 (fun c hc => h c (by simp [hc]))
        simp only [Node.numNodesList, Node.serializeList, List.length_append]
        omega
    have := hlist cs ih
    simp only [Node.numNodes, Node._serialize, List.length_cons, List.length_append,
      u64le_length]
    omega

theorem deserialize_serialize_body (n : Node) : n.wfb = true →
    ∀ (fuel : Nat) (rest : List Nat), n.numNodes ≤ fuel →
      Node._deserialize_from fuel (n._serialize ++ rest) = .ok (n, rest) := by
  induction n using Node.recMem with
  | hleaf bs =>
    intro hwf fuel rest hfuel
    obtain ⟨hlen, _⟩ := (wfb_leaf bs).1 hwf
    obtain ⟨f, rfl⟩ : ∃ f, fuel = f + 1 := ⟨fuel - 1, by simp at hfuel; omega⟩
    have h8 : readExactN 8 (u64le bs.length ++ (bs ++ rest)) = .ok (u64le bs.length, bs ++ rest) := by
      have := readExactN_append (u64le bs.length) (bs ++ rest)
      rwa [u64le_length] at this
    simp only [Node._serialize, List.cons_append, List.append_assoc]
    rw [Node._deserialize_from]
    simp only [if_pos rfl, h8, fromLe_u64le bs.length hlen, readExactN_append]
    simp
  | hinner cs ih =>
    intro hwf fuel rest hfuel
    obtain ⟨hlen, hcs⟩ := (wfb_inner cs).1 hwf
    obtain ⟨f, rfl⟩ : ∃ f, fuel = f + 1 := ⟨fuel - 1, by simp at hfuel; omega⟩
    have hf : Node.numNodesList cs ≤ f := by
      simp at hfuel; omega
    have h8 : readExactN 8 (u64le cs.length ++ (Node.serializeList cs ++ rest)) =
        .ok (u64le cs.length, Node.serializeList cs ++ rest) := by
      have := readExactN_append (u64le cs.length) (Node.serializeList cs ++ rest)
      rwa [u64le_length] at this
    have hchildren : ∀ cs2 : List Node,
        (∀ c ∈ cs2, c.wfb = true) →
        (∀ c ∈ cs2, c.wfb = true → ∀ fuel rest2, c.numNodes ≤ fuel →
          Node._deserialize_from fuel (c._serialize ++ rest2) = .ok (c, rest2)) →
        ∀ rest2, Node.numNodesList cs2 ≤ f →
          Node.deserializeChildren f cs2.length (Node.serializeList cs2 ++ rest2) =
            .ok (cs2, rest2) := by
      intro cs2
      induction cs2 with
      | nil => intro _ _ rest2 _; simp [Node.serializeList, Node.deserializeChildren]
      | cons c cs2 ih2 =>
        intro hwf2 hihs rest2 hfuel2
        simp only [Node.numNodesList] at hfuel2
        have hc1 : 1 ≤ c.numNodes := numNodes_pos c
        have hstep := hihs c (by simp) (hwf2 c (by simp)) f (Node.serializeList cs2 ++ rest2)
          (by omega)
        have hrest := ih2 (fun x hx => hwf2 x (by simp [hx]))
          (fun x hx => hihs x (by simp [hx])) rest2 (by omega)
        simp only [Node.serializeList, List.length_cons, List.append_assoc]
        rw [Node.deserializeChildren]
        simp only [hstep, hrest]
    have hkids := hchildren cs hcs (fun c hc hw => ih c hc hw) rest hf
    simp only [Node._serialize, List.cons_append, List.append_assoc]
    rw [Node._deserialize_from]
    simp only [if_neg (by omega : ¬ (1 : Nat) = 0), if_pos rfl, h8,
      fromLe_u64le cs.length hlen, hkids]
    simp

/-! ## Widths and the Display rendering -/

@[simp] theorem width_leaf (bs : List Nat) :
    (Node.Leaf bs)._width = 2 + 2 * bs.length + (bs.length - 1) := by
  rw [Node._width]

@[simp] theorem width_inner (cs : List Node) :
    (Node.Inner cs)._width = 2 + Node.widthSum cs + (cs.length - 1) := by
  rw [Node._width]

theorem widthSum_eq_map_sum (cs : List Node) :
    Node.widthSum cs = (cs.map Node._width).sum := by
  induction cs with
  | nil => rfl
  | cons c cs ih => simp [Node.widthSum, ih]

theorem dispLeafGo_length_false : ∀ bs : List Nat, (dispLeafGo bs false).length = 3 * bs.length
  | [] => rfl
  | b :: bs => by
    simp [dispLeafGo, byteHex, dispLeafGo_length_false bs]
    ring

theorem dispLeafGo_length_true (bs : List Nat) :
    (dispLeafGo bs true).length = 3 * bs.length - 1 := by
  cases bs with
  | nil => rfl
  | cons b bs =>
    simp [dispLeafGo, byteHex, dispLeafGo_length_false bs]
    omega

theorem dispChildren_length (cs : List Node)
    (h : ∀ c ∈ cs, c._width = c.display.length) :
    (Node.dispChildren cs false).length = Node.widthSum cs + cs.length ∧
    (Node.dispChildren cs true).length = Node.widthSum cs + cs.length - 1 := by
  induction cs with
  | nil => simp [Node.dispChildren, Node.widthSum]
  | cons c cs ih =>
    have hc := h c (by simp)
    obtain ⟨ihf, _⟩ := ih (fun x hx => h x (by simp [hx]))
    constructor
    · simp [Node.dispChildren, Node.widthSum, ← hc, ihf]
      omega
    · simp [Node.dispChildren, Node.widthSum, ← hc, ihf]
      omega

theorem width_eq_display_length (n : Node) : n._width = n.display.length := by
  induction n using Node.recMem with
  | hleaf bs =>
    simp [Node.display, dispLeafGo_length_true bs]
    omega
  | hinner cs ih =>
    obtain ⟨_, ht⟩ := dispChildren_length cs ih
    cases cs with
    | nil => simp [Node.display, Node.dispChildren, Node.widthSum]
    | cons c cs2 =>
      have h1 : 1 ≤ Node.widthSum (c :: cs2) + (c :: cs2).length := by simp; omega
      simp only [Node.display, width_inner, List.length_cons, List.length_append, ht]
      simp
      omega

/-! ## Claim theorems: binary codec, widths, conversions -/

/-- C1: binary round-trip.  For every (well-formed) `Node` `n`,
deserializing `serialize n` succeeds and returns `n`. -/
theorem C1_binary_round_trip (n : Node) (h : n.wfb = true) :
    Node.deserialize n.serialize = .ok n := by
  have h5 : readExactN 5 (magicBytes ++ n._serialize) = .ok (magicBytes, n._serialize) := by
    have := readExactN_append magicBytes n._serialize
    simpa [magicBytes] using this
  have hb := deserialize_serialize_body n h (n._serialize.length + 1) []
    (by have := numNodes_le_serialize_length n; omega)
  rw [List.append_nil] at hb
  unfold Node.serialize Node.deserialize
  simp [h5, hb]

/-- Witness for C1 at the node of the repository's `test_basic`. -/
theorem C1_binary_round_trip_witness :
    (Node.Inner [.Leaf [1], .Leaf [2], .Leaf [3, 4]]).wfb = true ∧
    Node.deserialize (Node.Inner [.Leaf [1], .Leaf [2], .Leaf [3, 4]]).serialize =
      .ok (Node.Inner [.Leaf [1], .Leaf [2], .Leaf [3, 4]]) := by
  have hw : (Node.Inner [.Leaf [1], .Leaf [2], .Leaf [3, 4]]).wfb = true := by
    simp [Node.wfb, Node.wfbList]
  exact ⟨hw, C1_binary_round_trip _ hw⟩

/-- C4: exact consumption.  Appending any non-empty byte list to an
encoded (well-formed) node makes deserialization fail with
`AdditionalBytes`. -/
theorem C4_additional_bytes (n : Node) (extra : List Nat) (h : n.wfb = true)
    (hx : extra ≠ []) :
    Node.deserialize (n.serialize ++ extra) = .error .AdditionalBytes := by
  have h5 : readExactN 5 (magicBytes ++ (n._serialize ++ extra)) =
      .ok (magicBytes, n._serialize ++ extra) := by
    have := readExactN_append magicBytes (n._serialize ++ extra)
    simpa [magicBytes] using this
  have hb := deserialize_serialize_body n h ((n._serialize ++ extra).length + 1) extra
    (by have := numNodes_le_serialize_length n; simp; omega)
  simp only [List.length_append] at hb
  unfold Node.serialize Node.deserialize
  rw [List.append_assoc]
  simp [h5, hb, hx]

/-- Witness for C4: one extra byte after an encoded leaf. -/
theorem C4_additional_bytes_witness :
    (Node.Leaf [1, 2]).wfb = true ∧ [(7 : Nat)] ≠ [] ∧
    Node.deserialize ((Node.Leaf [1, 2]).serialize ++ [7]) = .error .AdditionalBytes := by
  have hw : (Node.Leaf [1, 2]).wfb = true := by simp [Node.wfb]
  exact ⟨hw, by simp, C4_additional_bytes _ [7] hw (by simp)⟩

/-- C3 counterexample: the empty buffer does not start with the magic
bytes, yet deserializing it returns the wrapped I/O error (from the
failing `read_exact` of the magic), not `InvalidMagicNumber`. -/
theorem C3_magic_counterexample :
    (([] : List Nat).take 5 ≠ magicBytes) ∧
    Node.deserialize [] = .error .IOError ∧
    Error.IOError ≠ Error.InvalidMagicNumber := by
  refine ⟨by decide, ?_, by decide⟩
  rfl

/-- C3 as amended: a buffer of at least 5 bytes whose first 5 bytes are
not the magic fails with `InvalidMagicNumber`; a buffer shorter than
5 bytes fails with the wrapped I/O error instead. -/
theorem C3_magic_check (input : List Nat) :
    (5 ≤ input.length → input.take 5 ≠ magicBytes →
      Node.deserialize input = .error .InvalidMagicNumber) ∧
    (input.length < 5 → Node.deserialize input = .error .IOError) := by
  constructor
  · intro h5 hm
    unfold Node.deserialize
    simp [readExactN, h5, hm]
  · intro h5
    have hn : ¬ 5 ≤ input.length := by omega
    unfold Node.deserialize
    simp [readExactN, hn]

/-- Witness for C3 as amended. -/
theorem C3_magic_check_witness :
    Node.deserialize [0, 0, 0, 0, 0] = .error .InvalidMagicNumber ∧
    Node.deserialize [9] = .error .IOError :=
  ⟨(C3_magic_check [0, 0, 0, 0, 0]).1 (by decide) (by decide),
   (C3_magic_check [9]).2 (by decide)⟩

/-- C6: the measurement pass `_width` computes exactly the length of the
single-line `Display` rendering, with the leaf and inner closed
formulas of the spec. -/
theorem C6_width_correct :
    (∀ n : Node, n._width = n.display.length) ∧
    (∀ bs : List Nat, (Node.Leaf bs)._width = 2 + 2 * bs.length + (bs.length - 1)) ∧
    (∀ cs : List Node,
      (Node.Inner cs)._width = 2 + (cs.map Node._width).sum + (cs.length - 1)) :=
  ⟨width_eq_display_length,
   fun bs => width_leaf bs,
   fun cs => by rw [width_inner, widthSum_eq_map_sum]⟩

/-- C9: conversions.  Viewing an inner node as bytes fails with
`ExpectedLeaf`; converting a leaf to a fixed-size array fails with
`LengthMismatch` unless the length matches exactly, in which case it
returns the leaf's bytes; including the spec's literal scenarios. -/
theorem C9_conversions :
    (∀ (cs : List Node) (k : Nat),
      (Node.Inner cs).try_into_array k = .error .ExpectedLeaf) ∧
    (∀ (bs : List Nat) (k : Nat), bs.length ≠ k →
      (Node.Leaf bs).try_into_array k = .error .LengthMismatch) ∧
    (∀ bs : List Nat, (Node.Leaf bs).try_into_array bs.length = .ok bs) ∧
    (Node.Leaf [1, 2, 3, 4]).try_into_array 4 = .ok [1, 2, 3, 4] ∧
    (Node.Leaf [1, 2, 3, 4]).try_into_array 10 = .error .LengthMismatch ∧
    (Node.Inner []).try_into_array 1 = .error .ExpectedLeaf := by
  refine ⟨?_, ?_, ?_, by rfl, by rfl, by rfl⟩
  · intro cs k
    simp [Node.try_into_array, Node.tryIntoBytes]
  · intro bs k h
    simp [Node.try_into_array, Node.tryIntoBytes, h]
  · intro bs
    simp [Node.try_into_array, Node.tryIntoBytes]

/-- Witness for C9's hypothesis-guarded conjunct at the spec's example. -/
theorem C9_conversions_witness :
    ([1, 2, 3, 4] : List Nat).length ≠ 10 ∧
    (Node.Leaf [1, 2, 3, 4]).try_into_array 10 = .error .LengthMismatch :=
  ⟨by decide, C9_conversions.2.1 [1, 2, 3, 4] 10 (by decide)⟩

/-! ## Hex digit characters -/

theorem hexVal_hexDigitChar (d : Nat) (h : d < 16) : hexVal (hexDigitChar d) = some d := by
  interval_cases d <;> decide

theorem hexDigitChar_ne_newline (d : Nat) : hexDigitChar d ≠ '\n' := by
  unfold hexDigitChar
  split
  · have h : d % 10 < 10 := Nat.mod_lt _ (by norm_num)
    interval_cases h2 : d % 10 <;> decide
  · have h : d % 16 < 16 := Nat.mod_lt _ (by norm_num)
    interval_cases h2 : d % 16 <;> decide

theorem countNL_byteHex (b : Nat) : countNL (byteHex b) = 0 := by
  simp [countNL, byteHex, List.count_cons, hexDigitChar_ne_newline]

/-! ## Tokenizer case equations -/

theorem tokenize_nil : tokenize [] = .ok [] := by
  rw [tokenize]

theorem tokenize_lparen (l : List Char) :
    tokenize ('(' :: l) = (tokenize l).map (fun ts => Token.LParen :: ts) := by
  rw [tokenize.eq_def]
  norm_num

theorem tokenize_rparen (l : List Char) :
    tokenize (')' :: l) = (tokenize l).map (fun ts => Token.RParen :: ts) := by
  rw [tokenize.eq_def]
  norm_num
  exact fun h => absurd h (by decide)

theorem tokenize_space (l : List Char) : tokenize (' ' :: l) = tokenize l := by
  rw [tokenize.eq_def]
  norm_num
  rfl

theorem tokenize_newline (l : List Char) : tokenize ('\n' :: l) = tokenize l := by
  rw [tokenize.eq_def]
  norm_num
  rfl

theorem tokenize_replicate_space (k : Nat) (l : List Char) :
    tokenize (List.replicate k ' ' ++ l) = tokenize l := by
  induction k with
  | zero => simp
  | succ k ih => simpa [List.replicate_succ, tokenize_space] using ih

theorem tokenize_literal (cs2 : List Char) :
    tokenize ('0' :: 'x' :: cs2) =
      (match scanHex cs2 [] none with
       | (ret, pend, rest) =>
         if pend.isSome then .error "byte sequence incomplete"
         else (tokenize rest).map (fun ts => Token.Bytes ret :: ts)) := by
  rw [tokenize]
  simp

/-! ## Hex-literal scanning -/

theorem scanHex_nil (acc : List Nat) (pend : Option Nat) :
    scanHex [] acc pend = (acc, pend, []) := by
  rw [scanHex]

theorem scanHex_underscore (cs : List Char) (acc : List Nat) (pend : Option Nat) :
    scanHex ('_' :: cs) acc pend = scanHex cs acc pend := by
  rw [scanHex]
  norm_num [show hexVal '_' = none from by decide]

theorem scanHex_digit_none (c : Char) (cs : List Char) (acc : List Nat) (d : Nat)
    (h : hexVal c = some d) : scanHex (c :: cs) acc none = scanHex cs acc (some d) := by
  rw [scanHex]
  simp [h]

theorem scanHex_digit_some (c : Char) (cs : List Char) (acc : List Nat) (f d : Nat)
    (h : hexVal c = some d) :
    scanHex (c :: cs) acc (some f) = scanHex cs (acc ++ [16 * f + d]) none := by
  rw [scanHex]
  simp [h]

theorem scanHex_stop (c : Char) (cs : List Char) (acc : List Nat) (pend : Option Nat)
    (h1 : hexVal c = none) (h2 : c ≠ '_') :
    scanHex (c :: cs) acc pend = (acc, pend, c :: cs) := by
  rw [scanHex]
  simp [h1, h2]

theorem scanHex_sepHead (rest : List Char) (acc : List Nat) (pend : Option Nat)
    (hr : sepHeadB rest = true) : scanHex rest acc pend = (acc, pend, rest) := by
  cases rest with
  | nil => exact scanHex_nil acc pend
  | cons c cs =>
    simp only [sepHeadB, Bool.and_eq_true, Option.isNone_iff_eq_none, bne_iff_ne] at hr
    exact scanHex_stop c cs acc pend hr.1 hr.2

theorem dispLeafGo_cons_false (b : Nat) (bs : List Nat) :
    dispLeafGo (b :: bs) false = '_' :: (byteHex b ++ dispLeafGo bs false) := by
  simp [dispLeafGo]

theorem dispLeafGo_cons_true (b : Nat) (bs : List Nat) :
    dispLeafGo (b :: bs) true = byteHex b ++ dispLeafGo bs false := by
  simp [dispLeafGo]

theorem scanHex_dispLeafGo_false (bs : List Nat) (h : ∀ b ∈ bs, b < 256)
    (rest : List Char) (hr : sepHeadB rest = true) :
    ∀ acc : List Nat, scanHex (dispLeafGo bs false ++ rest) acc none = (acc ++ bs, none, rest) := by
  induction bs with
  | nil =>
    intro acc
    simpa [dispLeafGo] using scanHex_sepHead rest acc none hr
  | cons b bs ih =>
    intro acc
    have hb : b < 256 := h b (by simp)
    have hhi : b / 16 < 16 := by
      rw [Nat.div_lt_iff_lt_mul (by norm_num : 0 < 16)]
      omega
    have hlo : b % 16 < 16 := Nat.mod_lt _ (by norm_num)
    have hrec : b = 16 * (b / 16) + b % 16 := (Nat.div_add_mod b 16).symm
    simp only [dispLeafGo_cons_false, byteHex, List.cons_append, List.append_assoc]
    rw [scanHex_underscore, scanHex_digit_none _ _ _ _ (hexVal_hexDigitChar _ hhi),
      scanHex_digit_some _ _ _ _ _ (hexVal_hexDigitChar _ hlo), ← hrec]
    simp only [List.nil_append]
    rw [ih (fun x hx => h x (by simp [hx])) (acc ++ [b])]
    simp

theorem scanHex_dispLeafGo_true (bs : List Nat) (h : ∀ b ∈ bs, b < 256)
    (rest : List Char) (hr : sepHeadB rest = true) :
    scanHex (dispLeafGo bs true ++ rest) [] none = (bs, none, rest) := by
  cases bs with
  | nil => simpa [dispLeafGo] using scanHex_sepHead rest [] none hr
  | cons b bs =>
    have hb : b < 256 := h b (by simp)
    have hhi : b / 16 < 16 := by
      rw [Nat.div_lt_iff_lt_mul (by norm_num : 0 < 16)]
      omega
    have hlo : b % 16 < 16 := Nat.mod_lt _ (by norm_num)
    have hrec : b = 16 * (b / 16) + b % 16 := (Nat.div_add_mod b 16).symm
    simp only [dispLeafGo_cons_true, byteHex, List.cons_append, List.append_assoc]
    rw [scanHex_digit_none _ _ _ _ (hexVal_hexDigitChar _ hhi),
      scanHex_digit_some _ _ _ _ _ (hexVal_hexDigitChar _ hlo), ← hrec]
    simp only [List.nil_append]
    rw [scanHex_dispLeafGo_false bs (fun x hx => h x (by simp [hx])) rest hr [b]]
    simp

/-! ## Tokenizing a Display rendering -/

theorem exmap_exmap {ε α β γ : Type} (e : Except ε α) (f : α → β) (g : β → γ) :
    (e.map f).map g = e.map (fun x => g (f x)) := by
  cases e <;> rfl

theorem exmap_ok {ε α β : Type} (f : α → β) (a : α) :
    (Except.ok a : Except ε α).map f = .ok (f a) := rfl

theorem display_leaf (bs : List Nat) :
    (Node.Leaf bs).display = '0' :: 'x' :: dispLeafGo bs true := by
  rw [Node.display]

theorem display_inner (cs : List Node) :
    (Node.Inner cs).display = '(' :: (Node.dispChildren cs true ++ [')']) := by
  rw [Node.display]

theorem dispChildren_nil (f : Bool) : Node.dispChildren [] f = [] := by
  rw [Node.dispChildren]

theorem dispChildren_cons_false (c : Node) (cs : List Node) :
    Node.dispChildren (c :: cs) false = ' ' :: (c.display ++ Node.dispChildren cs false) := by
  rw [Node.dispChildren]
  simp

theorem dispChildren_cons_true (c : Node) (cs : List Node) :
    Node.dispChildren (c :: cs) true = c.display ++ Node.dispChildren cs false := by
  rw [Node.dispChildren]
  simp

theorem displayTokens_leaf (bs : List Nat) :
    (Node.Leaf bs).displayTokens = [Token.Bytes bs] := by
  rw [Node.displayTokens]

theorem displayTokens_inner (cs : List Node) :
    (Node.Inner cs).displayTokens =
      Token.LParen :: (Node.displayTokensList cs ++ [Token.RParen]) := by
  rw [Node.displayTokens]

theorem displayTokensList_nil : Node.displayTokensList [] = [] := by
  rw [Node.displayTokensList]

theorem displayTokensList_cons (c : Node) (cs : List Node) :
    Node.displayTokensList (c :: cs) = c.displayTokens ++ Node.displayTokensList cs := by
  rw [Node.displayTokensList]

theorem sepHeadB_dispChildren_append (cs : List Node) (rest : List Char)
    (hr : sepHeadB rest = true) :
    sepHeadB (Node.dispChildren cs false ++ rest) = true := by
  cases cs with
  | nil => simpa [dispChildren_nil] using hr
  | cons c cs =>
    simp [dispChildren_cons_false, sepHeadB]
    decide

theorem sepHeadB_rparen (rest : List Char) : sepHeadB (')' :: rest) = true := by
  simp [sepHeadB]
  decide

theorem sepHeadB_newline (rest : List Char) : sepHeadB ('\n' :: rest) = true := by
  simp [sepHeadB]
  decide

theorem tokenize_display (n : Node) : n.wfb = true →
    ∀ rest : List Char, sepHeadB rest = true →
      tokenize (n.display ++ rest) = (tokenize rest).map (fun ts => n.displayTokens ++ ts) := by
  induction n using Node.recMem with
  | hleaf bs =>
    intro hwf rest hr
    obtain ⟨-, hb⟩ := (wfb_leaf bs).1 hwf
    rw [display_leaf]
    simp only [List.cons_append]
    rw [tokenize_literal, scanHex_dispLeafGo_true bs hb rest hr]
    simp only [Option.isSome_none, Bool.false_eq_true, if_false, displayTokens_leaf]
    cases tokenize rest <;> rfl
  | hinner cs ih =>
    intro hwf rest hr
    obtain ⟨-, hcs⟩ := (wfb_inner cs).1 hwf
    have hlist : ∀ cs2 : List Node, (∀ c ∈ cs2, c.wfb = true) →
        (∀ c ∈ cs2, c.wfb = true → ∀ rest2 : List Char, sepHeadB rest2 = true →
          tokenize (c.display ++ rest2) =
            (tokenize rest2).map (fun ts => c.displayTokens ++ ts)) →
        ∀ rest2 : List Char, sepHeadB rest2 = true →
          tokenize (Node.dispChildren cs2 false ++ rest2) =
            (tokenize rest2).map (fun ts => Node.displayTokensList cs2 ++ ts) := by
      intro cs2
      induction cs2 with
      | nil =>
        intro _ _ rest2 _
        simp only [dispChildren_nil, List.nil_append, displayTokensList_nil]
        cases tokenize rest2 <;> rfl
      | cons c cs2 ih2 =>
        intro hwf2 hihs rest2 hr2
        have htail := ih2 (fun x hx => hwf2 x (by simp [hx]))
          (fun x hx => hihs x (by simp [hx])) rest2 hr2
        have hsep := sepHeadB_dispChildren_append cs2 rest2 hr2
        have hc := hihs c (by simp) (hwf2 c (by simp))
          (Node.dispChildren cs2 false ++ rest2) hsep
        rw [dispChildren_cons_false]
        simp only [List.cons_append, List.append_assoc]
        rw [tokenize_space, hc, htail, exmap_exmap, displayTokensList_cons]
        cases tokenize rest2 <;> simp
    have hkids := hlist cs hcs (fun c hc hw => ih c hc hw)
    rw [display_inner]
    simp only [List.cons_append, List.append_assoc, List.singleton_append]
    rw [tokenize_lparen]
    cases cs with
    | nil =>
      rw [dispChildren_nil]
      simp only [List.nil_append]
      rw [tokenize_rparen, exmap_exmap, displayTokens_inner, displayTokensList_nil]
      cases tokenize rest <;> rfl
    | cons c cs2 =>
      rw [dispChildren_cons_true]
      have hsep := sepHeadB_dispChildren_append cs2 (')' :: rest) (sepHeadB_rparen rest)
      have hc := ih c (by simp) (hcs c (by simp))
        (Node.dispChildren cs2 false ++ (')' :: rest)) hsep
      have htail := hlist cs2 (fun x hx => hcs x (by simp [hx]))
        (fun x hx => ih x (by simp [hx]))
      simp only [List.append_assoc, List.nil_append]
      rw [hc]
      rw [htail (')' :: rest) (sepHeadB_rparen rest)]
      rw [tokenize_rparen]
      rw [exmap_exmap, exmap_exmap, exmap_exmap, displayTokens_inner, displayTokensList_cons]
      cases tokenize rest <;> simp

/-! ## Parsing a Display token sequence -/

theorem parseFuel_leaf (bs : List Nat) : (Node.Leaf bs).parseFuel = 1 := by
  rw [Node.parseFuel]

theorem parseFuel_inner (cs : List Node) :
    (Node.Inner cs).parseFuel = 1 + Node.parseFuelList cs := by
  rw [Node.parseFuel]

theorem parseFuelList_nil : Node.parseFuelList [] = 1 := by
  rw [Node.parseFuelList]

theorem parseFuelList_cons (c : Node) (cs : List Node) :
    Node.parseFuelList (c :: cs) = 1 + max c.parseFuel (Node.parseFuelList cs) := by
  rw [Node.parseFuelList]

theorem displayTokens_head_ne_rparen (c : Node) (xs : List Token) :
    (c.displayTokens ++ xs).head? ≠ some Token.RParen := by
  cases c with
  | Leaf bs => rw [displayTokens_leaf]; simp
  | Inner cs => rw [displayTokens_inner]; simp

theorem parseNode_displayTokens (n : Node) :
    ∀ (fuel : Nat) (ts : List Token), n.parseFuel ≤ fuel →
      parseNode fuel (n.displayTokens ++ ts) = .ok (n, ts) := by
  induction n using Node.recMem with
  | hleaf bs =>
    intro fuel ts hf
    rw [parseFuel_leaf] at hf
    obtain ⟨f, rfl⟩ : ∃ f, fuel = f + 1 := ⟨fuel - 1, by omega⟩
    rw [displayTokens_leaf]
    rfl
  | hinner cs ih =>
    intro fuel ts hf
    rw [parseFuel_inner] at hf
    obtain ⟨f, rfl⟩ : ∃ f, fuel = f + 1 := ⟨fuel - 1, by omega⟩
    have hfl : Node.parseFuelList cs ≤ f := by omega
    have hchild : ∀ cs2 : List Node,
        (∀ c ∈ cs2, ∀ (fuel : Nat) (ts : List Token), c.parseFuel ≤ fuel →
          parseNode fuel (c.displayTokens ++ ts) = .ok (c, ts)) →
        ∀ (g : Nat) (ts2 : List Token), Node.parseFuelList cs2 ≤ g →
          parseChildren g (Node.displayTokensList cs2 ++ (Token.RParen :: ts2)) =
            .ok (cs2, ts2) := by
      intro cs2
      induction cs2 with
      | nil =>
        intro _ g ts2 hg
        rw [parseFuelList_nil] at hg
        obtain ⟨g2, rfl⟩ : ∃ g2, g = g2 + 1 := ⟨g - 1, by omega⟩
        rw [displayTokensList_nil]
        rw [parseChildren]
        simp
      | cons c cs2 ih2 =>
        intro hihs g ts2 hg
        rw [parseFuelList_cons] at hg
        have hm1 := le_max_left c.parseFuel (Node.parseFuelList cs2)
        have hm2 := le_max_right c.parseFuel (Node.parseFuelList cs2)
        obtain ⟨g2, rfl⟩ : ∃ g2, g = g2 + 1 := ⟨g - 1, by omega⟩
        have hgc : c.parseFuel ≤ g2 := by omega
        have hgl : Node.parseFuelList cs2 ≤ g2 := by omega
        have hc := hihs c (by simp) g2 (Node.displayTokensList cs2 ++ (Token.RParen :: ts2)) hgc
        have htail := ih2 (fun x hx => hihs x (by simp [hx])) g2 ts2 hgl
        rw [displayTokensList_cons]
        simp only [List.append_assoc]
        rw [parseChildren]
        rw [if_neg (displayTokens_head_ne_rparen c
          (Node.displayTokensList cs2 ++ (Token.RParen :: ts2)))]
        simp only [hc, htail]
    have hkids := hchild cs ih f ts hfl
    rw [displayTokens_inner]
    simp only [List.cons_append, List.append_assoc, List.singleton_append, List.nil_append]
    rw [parseNode, hkids]

theorem displayTokens_length_pos (n : Node) : 1 ≤ n.displayTokens.length := by
  cases n with
  | Leaf bs => rw [displayTokens_leaf]; simp
  | Inner cs => rw [displayTokens_inner]; simp

theorem parseFuel_le_displayTokens (n : Node) :
    n.parseFuel ≤ n.displayTokens.length := by
  induction n using Node.recMem with
  | hleaf bs => rw [parseFuel_leaf, displayTokens_leaf]; simp
  | hinner cs ih =>
    have hlist : ∀ cs2 : List Node,
        (∀ c ∈ cs2, c.parseFuel ≤ c.displayTokens.length) →
        Node.parseFuelList cs2 ≤ (Node.displayTokensList cs2).length + 1 := by
      intro cs2
      induction cs2 with
      | nil => intro _; rw [parseFuelList_nil, displayTokensList_nil]; simp
      | cons c cs2 ih2 =>
        intro h
        have h1 := h c (by simp)
        have h2 := ih2 (fun x hx => h x (by simp [hx]))
        have h3 := displayTokens_length_pos c
        rw [parseFuelList_cons, displayTokensList_cons]
        have hmax : max c.parseFuel (Node.parseFuelList cs2) ≤
            c.displayTokens.length + (Node.displayTokensList cs2).length := by
          refine max_le (by omega) (by omega)
        simp only [List.length_append]
        omega
    have := hlist cs ih
    rw [parseFuel_inner, displayTokens_inner]
    simp only [List.length_cons, List.length_append, List.length_singleton]
    omega

theorem parseTokens_displayTokens (n : Node) : parseTokens n.displayTokens = .ok n := by
  have hf : n.parseFuel ≤ n.displayTokens.length + 1 :=
    le_trans (parseFuel_le_displayTokens n) (by omega)
  have hp := parseNode_displayTokens n (n.displayTokens.length + 1) [] hf
  rw [List.append_nil] at hp
  unfold parseTokens
  rw [hp]

theorem tokenize_display_self (n : Node) (h : n.wfb = true) :
    tokenize n.display = .ok n.displayTokens := by
  have hd := tokenize_display n h [] rfl
  rw [List.append_nil] at hd
  rw [hd, tokenize_nil, exmap_ok, List.append_nil]

/-- C7: text round-trip.  Parsing the canonical single-line `Display`
rendering of any (well-formed) node returns exactly that node; in
particular the rendering tokenizes without the odd-digit error. -/
theorem C7_text_round_trip (n : Node) (h : n.wfb = true) :
    Node.parse n.display = .Ok n ∧ tokenize n.display = .ok n.displayTokens := by
  refine ⟨?_, tokenize_display_self n h⟩
  unfold Node.parse ParseResult.parse
  rw [tokenize_display_self n h]
  simp [parseTokens_displayTokens n]

/-- Witness for C7 at the node of the repository's `fmt` test. -/
theorem C7_text_round_trip_witness :
    (Node.Inner [.Leaf [1, 2, 3],
      .Inner [.Leaf [], .Leaf [1], .Leaf [35, 16, 10, 188]]]).wfb = true ∧
    Node.parse (Node.Inner [.Leaf [1, 2, 3],
      .Inner [.Leaf [], .Leaf [1], .Leaf [35, 16, 10, 188]]]).display =
      .Ok (Node.Inner [.Leaf [1, 2, 3],
        .Inner [.Leaf [], .Leaf [1], .Leaf [35, 16, 10, 188]]]) := by
  have hw : (Node.Inner [.Leaf [1, 2, 3],
      .Inner [.Leaf [], .Leaf [1], .Leaf [35, 16, 10, 188]]]).wfb = true := by
    simp [Node.wfb, Node.wfbList]
  exact ⟨hw, (C7_text_round_trip _ hw).1⟩

/-! ## Tokenizer case equations for arbitrary heads -/

theorem tokenize_literal_pro (cs2 : List Char) :
    tokenize ('0' :: 'x' :: cs2) =
      (if (scanHex cs2 [] none).2.1.isSome = true then .error "byte sequence incomplete"
       else (tokenize (scanHex cs2 [] none).2.2).map
         (fun ts => Token.Bytes (scanHex cs2 [] none).1 :: ts)) := by
  rw [tokenize_literal]

theorem tokenize_zero_nil : tokenize ['0'] = .error "Expected 'x'!" := by
  rw [tokenize.eq_def]
  norm_num
  rw [if_neg (by decide), if_neg (by decide)]

theorem tokenize_zero_cons (a : Char) (cs2 : List Char) (ha : a ≠ 'x') :
    tokenize ('0' :: a :: cs2) = .error "Expected 'x'!" := by
  rw [tokenize.eq_def]
  norm_num
  rw [if_neg (by decide), if_neg (by decide)]
  split
  · simp_all
  · rfl

theorem tokenize_ws_cons (c : Char) (l : List Char) (h1 : c ≠ '(') (h2 : c ≠ ')')
    (h3 : c ≠ '0') (h4 : isAsciiWhitespace c = true) : tokenize (c :: l) = tokenize l := by
  rw [tokenize.eq_def]
  simp [h1, h2, h3, h4]

theorem tokenize_other_cons (c : Char) (l : List Char) (h1 : c ≠ '(') (h2 : c ≠ ')')
    (h3 : c ≠ '0') (h4 : isAsciiWhitespace c = false) :
    tokenize (c :: l) = .error "Unexpected character!" := by
  rw [tokenize.eq_def]
  simp [h1, h2, h3, h4]

/-! ## Structure of hex-literal scans -/

theorem scanHex_append_of_stuck :
    ∀ (l : List Char) (acc : List Nat) (pend : Option Nat) (ret : List Nat)
      (pd : Option Nat) (rc : Char) (rest0 : List Char),
      scanHex l acc pend = (ret, pd, rc :: rest0) →
      ∀ l2 : List Char, scanHex (l ++ l2) acc pend = (ret, pd, rc :: (rest0 ++ l2))
  | [], acc, pend, ret, pd, rc, rest0 => by
    rw [scanHex_nil]
    intro h l2
    simp at h
  | c :: cs, acc, pend, ret, pd, rc, rest0 => by
    intro h l2
    rcases hv : hexVal c with _ | d
    · by_cases hu : c = '_'
      · subst hu
        rw [scanHex_underscore] at h
        rw [List.cons_append, scanHex_underscore]
        exact scanHex_append_of_stuck cs acc pend ret pd rc rest0 h l2
      · rw [scanHex_stop c cs acc pend hv hu] at h
        rw [List.cons_append, scanHex_stop c (cs ++ l2) acc pend hv hu]
        simp only [Prod.mk.injEq] at h
        obtain ⟨rfl, rfl, h3⟩ := h
        injection h3 with hh1 hh2
        subst hh1
        subst hh2
        rfl
    · cases pend with
      | none =>
        rw [scanHex_digit_none c cs acc d hv] at h
        rw [List.cons_append, scanHex_digit_none c (cs ++ l2) acc d hv]
        exact scanHex_append_of_stuck cs acc (some d) ret pd rc rest0 h l2
      | some f =>
        rw [scanHex_digit_some c cs acc f d hv] at h
        rw [List.cons_append, scanHex_digit_some c (cs ++ l2) acc f d hv]
        exact scanHex_append_of_stuck cs (acc ++ [16 * f + d]) none ret pd rc rest0 h l2

theorem scanHex_all_hexU :
    ∀ (l : List Char) (acc : List Nat) (pend : Option Nat),
      (scanHex l acc pend).2.2 = [] → ∀ c ∈ l, isHexU c = true
  | [], _, _ => by intro _ c hc; cases hc
  | c :: cs, acc, pend => by
    intro h x hx
    rcases hv : hexVal c with _ | d
    · by_cases hu : c = '_'
      · subst hu
        rw [scanHex_underscore] at h
        rcases hx with _ | hx2
        · decide
        · exact scanHex_all_hexU cs acc pend h x (by assumption)
      · rw [scanHex_stop c cs acc pend hv hu] at h
        simp at h
    · have hnext : ∀ acc2 pend2, (scanHex cs acc2 pend2).2.2 = [] → x ∈ cs →
          isHexU x = true := fun acc2 pend2 hh hxx => scanHex_all_hexU cs acc2 pend2 hh x hxx
      rcases hx with _ | hx2
      · simp [isHexU, hv]
      · cases pend with
        | none =>
          rw [scanHex_digit_none c cs acc d hv] at h
          exact hnext acc (some d) h (by assumption)
        | some f =>
          rw [scanHex_digit_some c cs acc f d hv] at h
          exact hnext (acc ++ [16 * f + d]) none h (by assumption)

theorem scanHex_decomp :
    ∀ (l : List Char) (acc : List Nat) (pend : Option Nat),
      ∃ l0 : List Char, l = l0 ++ (scanHex l acc pend).2.2
  | [], acc, pend => ⟨[], by rw [scanHex_nil]; simp⟩
  | c :: cs, acc, pend => by
    rcases hv : hexVal c with _ | d
    · by_cases hu : c = '_'
      · subst hu
        rw [scanHex_underscore]
        obtain ⟨l0, hl0⟩ := scanHex_decomp cs acc pend
        exact ⟨'_' :: l0, by rw [List.cons_append, ← hl0]⟩
      · rw [scanHex_stop c cs acc pend hv hu]
        exact ⟨[], rfl⟩
    · cases pend with
      | none =>
        rw [scanHex_digit_none c cs acc d hv]
        obtain ⟨l0, hl0⟩ := scanHex_decomp cs acc (some d)
        exact ⟨c :: l0, by rw [List.cons_append, ← hl0]⟩
      | some f =>
        rw [scanHex_digit_some c cs acc f d hv]
        obtain ⟨l0, hl0⟩ := scanHex_decomp cs (acc ++ [16 * f + d]) none
        exact ⟨c :: l0, by rw [List.cons_append, ← hl0]⟩

/-! ## Delimiters and self-delimited prefixes -/

theorem isDelimChar_not_hexU (c : Char) (h : isDelimChar c = true) : isHexU c = false := by
  simp only [isDelimChar, isAsciiWhitespace, Bool.or_eq_true, beq_iff_eq] at h
  rcases h with (h | h) | ((((h | h) | h) | h) | h) <;> subst h <;> decide

theorem selfDelimB_tail (c : Char) (l : List Char) (h : selfDelimB (c :: l) = true) :
    selfDelimB l = true := by
  cases l with
  | nil => rfl
  | cons p ps =>
    unfold selfDelimB at h ⊢
    rwa [List.getLast?_cons_cons] at h

theorem mem_of_getLast?_eq : ∀ (l : List Char) (c : Char), l.getLast? = some c → c ∈ l
  | [], c => by intro h; cases h
  | [a], c => by
    intro h
    simp at h
    simp [h]
  | a :: b :: l, c => by
    intro h
    rw [List.getLast?_cons_cons] at h
    exact List.mem_cons_of_mem a (mem_of_getLast?_eq (b :: l) c h)

theorem selfDelimB_suffix (l0 rest : List Char) (rc : Char) (rest0 : List Char)
    (hr : rest = rc :: rest0) (h : selfDelimB (l0 ++ rest) = true) :
    selfDelimB rest = true := by
  subst hr
  unfold selfDelimB at h ⊢
  rwa [List.getLast?_append_cons] at h

/-- Tokenizing a well-tokenized, self-delimited prefix composes: the
prefix's tokens are emitted, then tokenization continues independently
on the appended text. -/
theorem tokenize_append_of_selfDelim :
    ∀ (N : Nat) (pre : List Char), pre.length ≤ N → selfDelimB pre = true →
      ∀ ts : List Token, tokenize pre = .ok ts →
        ∀ l : List Char, tokenize (pre ++ l) = (tokenize l).map (fun ts2 => ts ++ ts2) := by
  intro N
  induction N with
  | zero =>
    intro pre hlen _ ts htk l
    have hpre : pre = [] := List.eq_nil_of_length_eq_zero (by omega)
    subst hpre
    rw [tokenize_nil] at htk
    obtain rfl : ts = [] := by injection htk with h; exact h.symm
    simp only [List.nil_append]
    cases tokenize l <;> rfl
  | succ N ihN =>
    intro pre hlen hsd ts htk l
    cases pre with
    | nil =>
      rw [tokenize_nil] at htk
      obtain rfl : ts = [] := by injection htk with h; exact h.symm
      simp only [List.nil_append]
      cases tokenize l <;> rfl
    | cons c pre2 =>
      simp only [List.length_cons] at hlen
      have hlen2 : pre2.length ≤ N := by omega
      by_cases h1 : c = '('
      · subst h1
        rw [tokenize_lparen] at htk
        cases htk2 : tokenize pre2 with
        | error e => rw [htk2] at htk; cases htk
        | ok ts2 =>
          rw [htk2, exmap_ok] at htk
          obtain rfl : ts = Token.LParen :: ts2 := by injection htk with h; exact h.symm
          have hstep := ihN pre2 hlen2 (selfDelimB_tail _ _ hsd) ts2 htk2 l
          rw [List.cons_append, tokenize_lparen, hstep, exmap_exmap]
          cases tokenize l <;> rfl
      · by_cases h2 : c = ')'
        · subst h2
          rw [tokenize_rparen] at htk
          cases htk2 : tokenize pre2 with
          | error e => rw [htk2] at htk; cases htk
          | ok ts2 =>
            rw [htk2, exmap_ok] at htk
            obtain rfl : ts = Token.RParen :: ts2 := by injection htk with h; exact h.symm
            have hstep := ihN pre2 hlen2 (selfDelimB_tail _ _ hsd) ts2 htk2 l
            rw [List.cons_append, tokenize_rparen, hstep, exmap_exmap]
            cases tokenize l <;> rfl
        · by_cases h3 : c = '0'
          · subst h3
            cases pre2 with
            | nil => rw [tokenize_zero_nil] at htk; cases htk
            | cons a cs2 =>
              by_cases hax : a = 'x'
              · subst hax
                rw [tokenize_literal_pro] at htk
                rcases hscan : scanHex cs2 [] none with ⟨ret, pend, rest⟩
                rw [hscan] at htk
                dsimp only at htk
                by_cases hp : pend.isSome
                · rw [if_pos hp] at htk; cases htk
                · rw [if_neg hp] at htk
                  have hrest_ne : rest ≠ [] := by
                    intro h0
                    subst h0
                    have hall := scanHex_all_hexU cs2 [] none (by rw [hscan])
                    cases hcs2 : cs2 with
                    | nil =>
                      subst hcs2
                      exact absurd hsd (by decide)
                    | cons b bs =>
                      subst hcs2
                      cases hlast : (b :: bs).getLast? with
                      | none => simp [List.getLast?_eq_none_iff] at hlast
                      | some d =>
                        have hdmem := mem_of_getLast?_eq (b :: bs) d hlast
                        have hdhex := hall d hdmem
                        have hdelim : isDelimChar d = true := by
                          unfold selfDelimB at hsd
                          rw [List.getLast?_cons_cons, List.getLast?_cons_cons, hlast] at hsd
                          exact hsd
                        rw [isDelimChar_not_hexU d hdelim] at hdhex
                        cases hdhex
                  cases hrest : rest with
                  | nil => exact absurd hrest hrest_ne
                  | cons rc rest0 =>
                    subst hrest
                    cases htk2 : tokenize (rc :: rest0) with
                    | error e => rw [htk2] at htk; cases htk
                    | ok ts2 =>
                      rw [htk2, exmap_ok] at htk
                      obtain rfl : ts = Token.Bytes ret :: ts2 := by
                        injection htk with h; exact h.symm
                      obtain ⟨l0, hl0⟩ := scanHex_decomp cs2 [] none
                      rw [hscan] at hl0
                      have hxx : cs2 = l0 ++ (rc :: rest0) := by simpa using hl0
                      have hlenrest : (rc :: rest0).length ≤ N := by
                        have hx1 : cs2.length = l0.length + (rc :: rest0).length := by
                          rw [hxx]; simp
                        have hx2 : cs2.length + 1 ≤ N := by simpa using hlen2
                        omega
                      have hsd2 : selfDelimB (rc :: rest0) = true := by
                        unfold selfDelimB at hsd ⊢
                        rw [hxx] at hsd
                        rw [show ('0' :: 'x' :: (l0 ++ rc :: rest0)) =
                          ('0' :: 'x' :: l0) ++ (rc :: rest0) from by simp] at hsd
                        rwa [List.getLast?_append_cons] at hsd
                      have hstep := ihN (rc :: rest0) hlenrest hsd2 ts2 htk2 l
                      have happ := scanHex_append_of_stuck cs2 [] none ret pend rc rest0
                        hscan l
                      rw [List.cons_append, List.cons_append, tokenize_literal_pro, happ]
                      dsimp only
                      rw [if_neg hp]
                      rw [List.cons_append] at hstep
                      rw [hstep, exmap_exmap]
                      cases tokenize l <;> rfl
              · rw [tokenize_zero_cons a cs2 hax] at htk; cases htk
          · by_cases h4 : isAsciiWhitespace c
            · rw [tokenize_ws_cons c pre2 h1 h2 h3 h4] at htk
              have hstep := ihN pre2 hlen2 (selfDelimB_tail _ _ hsd) ts htk l
              rw [List.cons_append, tokenize_ws_cons c _ h1 h2 h3 h4, hstep]
            · rw [tokenize_other_cons c pre2 h1 h2 h3 (by simpa using h4)] at htk
              cases htk

/-! ## Odd-digit parity of a hex-literal scan -/

theorem hexDigitCount_nil : hexDigitCount [] = 0 := rfl

theorem hexDigitCount_cons (c : Char) (ds : List Char) :
    hexDigitCount (c :: ds) =
      (if (hexVal c).isSome then 1 else 0) + hexDigitCount ds := by
  simp only [hexDigitCount, List.filter_cons]
  split <;> simp [Nat.add_comm]

theorem scanHex_run :
    ∀ (ds : List Char), (∀ c ∈ ds, isHexU c = true) →
      ∀ (rest : List Char), sepHeadB rest = true →
        ∀ (acc : List Nat) (pend : Option Nat),
          ∃ (acc2 : List Nat) (pend2 : Option Nat),
            scanHex (ds ++ rest) acc pend = (acc2, pend2, rest) ∧
            (pend2.isSome =
              ((hexDigitCount ds + (if pend.isSome then 1 else 0)) % 2 = 1))
  | [], _, rest, hr, acc, pend => by
    refine ⟨acc, pend, by simpa using scanHex_sepHead rest acc pend hr, ?_⟩
    cases pend <;> simp [hexDigitCount_nil]
  | c :: ds, hall, rest, hr, acc, pend => by
    rcases hv : hexVal c with _ | d
    · have hc : c = '_' := by
        have := hall c (by simp)
        simp [isHexU, hv] at this
        exact this
      subst hc
      rw [List.cons_append, scanHex_underscore]
      obtain ⟨acc2, pend2, hsc, hp⟩ :=
        scanHex_run ds (fun x hx => hall x (by simp [hx])) rest hr acc pend
      exact ⟨acc2, pend2, hsc, by simpa [hexDigitCount_cons, hv] using hp⟩
    · cases pend with
      | none =>
        rw [List.cons_append, scanHex_digit_none c _ acc d hv]
        obtain ⟨acc2, pend2, hsc, hp⟩ :=
          scanHex_run ds (fun x hx => hall x (by simp [hx])) rest hr acc (some d)
        refine ⟨acc2, pend2, hsc, ?_⟩
        rw [hp, hexDigitCount_cons, hv]
        simp
        omega
      | some f =>
        rw [List.cons_append, scanHex_digit_some c _ acc f d hv]
        obtain ⟨acc2, pend2, hsc, hp⟩ :=
          scanHex_run ds (fun x hx => hall x (by simp [hx])) rest hr
            (acc ++ [16 * f + d]) none
        refine ⟨acc2, pend2, hsc, ?_⟩
        rw [hp, hexDigitCount_cons, hv]
        simp
        omega

/-- C8: odd-hex-digit policy.  A `0x` literal whose maximal run of hex
digits and underscores contains an odd number of hex digits makes the
whole parse fail with the lexing error "byte sequence incomplete",
wherever the literal occurs after a well-tokenized, self-delimited
prefix; the lone digit is never admitted as a byte. -/
theorem C8_odd_hex_digit_error (pre : List Char) (ts : List Token) (ds rest : List Char)
    (hpre1 : selfDelimB pre = true) (hpre2 : tokenize pre = .ok ts)
    (hds : ∀ c ∈ ds, isHexU c = true) (hodd : hexDigitCount ds % 2 = 1)
    (hrest : sepHeadB rest = true) :
    ParseResult.parse (pre ++ ('0' :: 'x' :: ds) ++ rest) =
      .LexingError "byte sequence incomplete" := by
  obtain ⟨acc2, pend2, hsc, hpend⟩ := scanHex_run ds hds rest hrest [] none
  have hpend2 : pend2.isSome = true := by
    rw [hpend]
    simp [hodd]
  have hlit : tokenize ('0' :: 'x' :: (ds ++ rest)) = .error "byte sequence incomplete" := by
    rw [tokenize_literal_pro, hsc]
    dsimp only
    rw [if_pos hpend2]
  have hcomp := tokenize_append_of_selfDelim pre.length pre (le_refl _) hpre1 ts hpre2
    ('0' :: 'x' :: (ds ++ rest))
  unfold ParseResult.parse
  rw [show pre ++ ('0' :: 'x' :: ds) ++ rest = pre ++ ('0' :: 'x' :: (ds ++ rest)) from by simp]
  rw [hcomp, hlit]
  rfl

/-- Witness for C8: the literal `0x1` inside `(0x1)`. -/
theorem C8_odd_hex_digit_error_witness :
    hexDigitCount ['1'] % 2 = 1 ∧
    ParseResult.parse (['('] ++ ('0' :: 'x' :: ['1']) ++ [')']) =
      .LexingError "byte sequence incomplete" :=
  ⟨by decide,
   C8_odd_hex_digit_error ['('] [Token.LParen] ['1'] [')'] (by decide)
     (by rw [tokenize_lparen, tokenize_nil]; rfl) (by decide) (by decide) (by decide)⟩

/-! ## Case-insensitivity of hex digits -/

theorem hexVal_swapHexCase (c : Char) : hexVal (swapHexCase c) = hexVal c := by
  unfold swapHexCase
  split_ifs with h h h h h h h h h h h h <;> first | (subst h; decide) | rfl

theorem swapHexCase_of_none (c : Char) (hv : hexVal c = none) : swapHexCase c = c := by
  unfold swapHexCase
  split_ifs with h h h h h h h h h h h h <;>
    first
      | rfl
      | (subst h; exact absurd hv (by decide))

theorem scanHex_congr_swap :
    ∀ (ds ds2 : List Char),
      List.Forall₂ (fun a b => b = a ∨ b = swapHexCase a) ds ds2 →
      (∀ c ∈ ds, isHexU c = true) →
      ∀ (rest : List Char) (acc : List Nat) (pend : Option Nat),
        scanHex (ds2 ++ rest) acc pend = scanHex (ds ++ rest) acc pend
  | [], ds2, hrel => by
    intro _ rest acc pend
    have h2 : ds2 = [] := by cases hrel; rfl
    subst h2
    rfl
  | a :: ds0, ds2, hrel => by
    intro hall rest acc pend
    obtain ⟨b, ds02, hab, htail, rfl⟩ : ∃ b ds02, (b = a ∨ b = swapHexCase a) ∧
        List.Forall₂ (fun a b => b = a ∨ b = swapHexCase a) ds0 ds02 ∧ ds2 = b :: ds02 := by
      cases hrel with
      | cons h1 h2 => exact ⟨_, _, h1, h2, rfl⟩
    have hallt : ∀ c ∈ ds0, isHexU c = true := fun x hx => hall x (by simp [hx])
    have hvb : hexVal b = hexVal a := by
      rcases hab with rfl | rfl
      · rfl
      · exact hexVal_swapHexCase a
    rcases hv : hexVal a with _ | d
    · have hba : b = a := by
        rcases hab with rfl | rfl
        · rfl
        · exact swapHexCase_of_none a hv
      subst hba
      have ha : b = '_' := by
        have := hall b (by simp)
        simp [isHexU, hv] at this
        exact this
      subst ha
      rw [List.cons_append, List.cons_append, scanHex_underscore, scanHex_underscore]
      exact scanHex_congr_swap ds0 ds02 htail hallt rest acc pend
    · rw [hv] at hvb
      cases pend with
      | none =>
        rw [List.cons_append, List.cons_append, scanHex_digit_none b _ acc d hvb,
          scanHex_digit_none a _ acc d hv]
        exact scanHex_congr_swap ds0 ds02 htail hallt rest acc (some d)
      | some f =>
        rw [List.cons_append, List.cons_append, scanHex_digit_some b _ acc f d hvb,
          scanHex_digit_some a _ acc f d hv]
        exact scanHex_congr_swap ds0 ds02 htail hallt rest (acc ++ [16 * f + d]) none

/-- C10: hex input is case-insensitive.  Replacing any subset of the hex
digits of a `0x` literal by their other-case forms leaves the parse
result of the whole input unchanged. -/
theorem C10_hex_case_insensitive (pre : List Char) (ts : List Token) (ds ds2 rest : List Char)
    (hpre1 : selfDelimB pre = true) (hpre2 : tokenize pre = .ok ts)
    (hds : ∀ c ∈ ds, isHexU c = true)
    (hrel : List.Forall₂ (fun a b => b = a ∨ b = swapHexCase a) ds ds2) :
    ParseResult.parse (pre ++ ('0' :: 'x' :: ds2) ++ rest) =
      ParseResult.parse (pre ++ ('0' :: 'x' :: ds) ++ rest) := by
  have hsc := scanHex_congr_swap ds ds2 hrel hds rest [] none
  have htok : tokenize ('0' :: 'x' :: (ds2 ++ rest)) =
      tokenize ('0' :: 'x' :: (ds ++ rest)) := by
    rw [tokenize_literal_pro, tokenize_literal_pro, hsc]
  have h1 := tokenize_append_of_selfDelim pre.length pre (le_refl _) hpre1 ts hpre2
    ('0' :: 'x' :: (ds2 ++ rest))
  have h2 := tokenize_append_of_selfDelim pre.length pre (le_refl _) hpre1 ts hpre2
    ('0' :: 'x' :: (ds ++ rest))
  unfold ParseResult.parse
  rw [show pre ++ ('0' :: 'x' :: ds2) ++ rest = pre ++ ('0' :: 'x' :: (ds2 ++ rest)) from
    by simp]
  rw [show pre ++ ('0' :: 'x' :: ds) ++ rest = pre ++ ('0' :: 'x' :: (ds ++ rest)) from
    by simp]
  rw [h1, h2, htok]

/-- Witness for C10: `0xAB` parses like `0xab`. -/
theorem C10_hex_case_insensitive_witness :
    ParseResult.parse (([] : List Char) ++ ('0' :: 'x' :: ['A', 'B']) ++ []) =
      ParseResult.parse (([] : List Char) ++ ('0' :: 'x' :: ['a', 'b']) ++ []) :=
  C10_hex_case_insensitive [] [] ['a', 'b'] ['A', 'B'] [] (by decide)
    (by rw [tokenize_nil]) (by decide)
    (List.Forall₂.cons (Or.inr (by decide))
      (List.Forall₂.cons (Or.inr (by decide)) List.Forall₂.nil))

/-! ## Pretty printer: basic equations -/

theorem pp_leaf (max indent : Nat) (bs : List Nat) :
    Node._pretty_print max indent (.Leaf bs) =
      '0' :: 'x' :: ppLeafGo max indent bs (indent + 2) true := by
  rw [Node._pretty_print]

theorem pp_inner_flat (max indent : Nat) (cs : List Node)
    (h : indent + (Node.Inner cs)._width ≤ max) :
    Node._pretty_print max indent (.Inner cs) =
      '(' :: (Node.ppFlat max indent cs true ++ [')']) := by
  rw [Node._pretty_print, if_pos h]

theorem pp_inner_multi (max indent : Nat) (cs : List Node)
    (h : ¬ indent + (Node.Inner cs)._width ≤ max) :
    Node._pretty_print max indent (.Inner cs) =
      '(' :: '\n' :: (Node.ppMulti max indent cs ++
        (List.replicate indent ' ' ++ [')'])) := by
  rw [Node._pretty_print, if_neg h]

theorem ppFlat_nil (max indent : Nat) (f : Bool) : Node.ppFlat max indent [] f = [] := by
  rw [Node.ppFlat]

theorem ppFlat_cons_true (max indent : Nat) (c : Node) (cs : List Node) :
    Node.ppFlat max indent (c :: cs) true =
      Node._pretty_print max indent c ++ Node.ppFlat max indent cs false := by
  rw [Node.ppFlat]
  simp

theorem ppFlat_cons_false (max indent : Nat) (c : Node) (cs : List Node) :
    Node.ppFlat max indent (c :: cs) false =
      ' ' :: (Node._pretty_print max indent c ++ Node.ppFlat max indent cs false) := by
  rw [Node.ppFlat]
  simp

theorem ppMulti_nil (max indent : Nat) : Node.ppMulti max indent [] = [] := by
  rw [Node.ppMulti]

theorem ppMulti_cons (max indent : Nat) (c : Node) (cs : List Node) :
    Node.ppMulti max indent (c :: cs) =
      List.replicate (indent + 4) ' ' ++
        (Node._pretty_print max (indent + 4) c ++ ('\n' :: Node.ppMulti max indent cs)) := by
  rw [Node.ppMulti]

theorem ppLeafGo_nil (max indent pos : Nat) (f : Bool) :
    ppLeafGo max indent [] pos f = [] := rfl

theorem ppLeafGo_wrap (max indent : Nat) (b : Nat) (bs : List Nat) (pos : Nat) (f : Bool)
    (h : max < pos + 3) :
    ppLeafGo max indent (b :: bs) pos f =
      '\n' :: (List.replicate (indent + 2) ' ' ++
        (byteHex b ++ ppLeafGo max indent bs (indent + 4) false)) := by
  rw [ppLeafGo, if_pos h]

theorem ppLeafGo_first (max indent : Nat) (b : Nat) (bs : List Nat) (pos : Nat)
    (h : ¬ max < pos + 3) :
    ppLeafGo max indent (b :: bs) pos true =
      byteHex b ++ ppLeafGo max indent bs (pos + 2) false := by
  rw [ppLeafGo, if_neg h, if_pos rfl]

theorem ppLeafGo_sep (max indent : Nat) (b : Nat) (bs : List Nat) (pos : Nat)
    (h : ¬ max < pos + 3) :
    ppLeafGo max indent (b :: bs) pos false =
      '_' :: (byteHex b ++ ppLeafGo max indent bs (pos + 3) false) := by
  rw [ppLeafGo, if_neg h, if_neg (by simp)]

/-! ## Newline counting -/

theorem countNL_append (a b : List Char) : countNL (a ++ b) = countNL a + countNL b := by
  simp [countNL]

theorem countNL_replicate_space (k : Nat) : countNL (List.replicate k ' ') = 0 := by
  simp [countNL, List.count_replicate]

theorem countNL_cons_ne (c : Char) (l : List Char) (h : c ≠ '\n') :
    countNL (c :: l) = countNL l := by
  simp [countNL, List.count_cons, h]

theorem countNL_nl (l : List Char) : countNL ('\n' :: l) = 1 + countNL l := by
  simp [countNL, List.count_cons]
  omega

theorem countNL_dispLeafGo : ∀ (bs : List Nat) (f : Bool), countNL (dispLeafGo bs f) = 0
  | [], _ => rfl
  | b :: bs, f => by
    cases f
    · rw [dispLeafGo_cons_false, countNL_cons_ne _ _ (by decide), countNL_append,
        countNL_byteHex, countNL_dispLeafGo bs false]
    · rw [dispLeafGo_cons_true, countNL_append, countNL_byteHex,
        countNL_dispLeafGo bs false]

theorem countNL_display (n : Node) : countNL n.display = 0 := by
  induction n using Node.recMem with
  | hleaf bs =>
    rw [display_leaf, countNL_cons_ne _ _ (by decide), countNL_cons_ne _ _ (by decide),
      countNL_dispLeafGo]
  | hinner cs ih =>
    have hlist : ∀ cs2 : List Node, (∀ c ∈ cs2, countNL c.display = 0) →
        countNL (Node.dispChildren cs2 false) = 0 := by
      intro cs2
      induction cs2 with
      | nil => intro _; rw [dispChildren_nil]; rfl
      | cons c cs2 ih2 =>
        intro h
        rw [dispChildren_cons_false, countNL_cons_ne _ _ (by decide), countNL_append,
          h c (by simp), ih2 (fun x hx => h x (by simp [hx]))]
    rw [display_inner, countNL_cons_ne _ _ (by decide), countNL_append]
    have ht : countNL (Node.dispChildren cs true) = 0 := by
      cases cs with
      | nil => rw [dispChildren_nil]; rfl
      | cons c cs2 =>
        rw [dispChildren_cons_true, countNL_append, ih c (by simp),
          hlist cs2 (fun x hx => ih x (by simp [hx]))]
    rw [ht]
    rfl

/-! ## Flat rendering equals the Display rendering -/

theorem FED_leafGo (max indent : Nat) :
    ∀ (bs : List Nat) (pos : Nat) (f : Bool), pos + 3 * bs.length ≤ max →
      ppLeafGo max indent bs pos f = dispLeafGo bs f
  | [], _, _, _ => rfl
  | b :: bs, pos, f, h => by
    have hlen : (b :: bs).length = bs.length + 1 := rfl
    have hnw : ¬ max < pos + 3 := by rw [hlen] at h; omega
    cases f
    · rw [ppLeafGo_sep max indent b bs pos hnw, dispLeafGo_cons_false]
      rw [FED_leafGo max indent bs (pos + 3) false (by rw [hlen] at h; omega)]
    · rw [ppLeafGo_first max indent b bs pos hnw, dispLeafGo_cons_true]
      rw [FED_leafGo max indent bs (pos + 2) false (by rw [hlen] at h; omega)]

theorem widthSum_mem_le (c : Node) : ∀ cs : List Node, c ∈ cs → c._width ≤ Node.widthSum cs
  | [], h => by cases h
  | x :: cs, h => by
    rcases h with _ | h2
    · simp [Node.widthSum]
    · have := widthSum_mem_le c cs (by assumption)
      simp [Node.widthSum]
      omega

theorem width_child_le (c : Node) (cs : List Node) (h : c ∈ cs) :
    c._width + 2 ≤ (Node.Inner cs)._width := by
  have := widthSum_mem_le c cs h
  rw [width_inner]
  omega

theorem width_leaf_len (bs : List Nat) :
    (Node.Leaf bs)._width = 2 + 2 * bs.length + (bs.length - 1) := width_leaf bs

theorem ppFlat_eq_dispChildren (max indent : Nat) :
    ∀ cs : List Node,
      (∀ c ∈ cs, ∀ (i2 m2 : Nat), i2 + c._width + 2 ≤ m2 →
        Node._pretty_print m2 i2 c = c.display) →
      (∀ c ∈ cs, indent + c._width + 2 ≤ max) →
      ∀ f : Bool, Node.ppFlat max indent cs f = Node.dispChildren cs f
  | [], _, _, f => by rw [ppFlat_nil, dispChildren_nil]
  | c :: cs, hfed, hb, f => by
    have hc := hfed c (by simp) indent max (hb c (by simp))
    have ht := ppFlat_eq_dispChildren max indent cs
      (fun x hx => hfed x (by simp [hx])) (fun x hx => hb x (by simp [hx])) false
    cases f
    · rw [ppFlat_cons_false, dispChildren_cons_false, hc, ht]
    · rw [ppFlat_cons_true, dispChildren_cons_true, hc, ht]

theorem FED_any (n : Node) : ∀ (indent max : Nat), indent + n._width + 2 ≤ max →
    Node._pretty_print max indent n = n.display := by
  induction n using Node.recMem with
  | hleaf bs =>
    intro indent max h
    rw [pp_leaf, display_leaf]
    rw [width_leaf_len] at h
    rw [FED_leafGo max indent bs (indent + 2) true (by omega)]
  | hinner cs ih =>
    intro indent max h
    have hflat : indent + (Node.Inner cs)._width ≤ max := by omega
    rw [pp_inner_flat max indent cs hflat, display_inner]
    rw [ppFlat_eq_dispChildren max indent cs (fun c hc => ih c hc)
      (fun c hc => by have := width_child_le c cs hc; omega) true]

theorem FED_inner (cs : List Node) (indent max : Nat)
    (h : indent + (Node.Inner cs)._width ≤ max) :
    Node._pretty_print max indent (.Inner cs) = (Node.Inner cs).display := by
  rw [pp_inner_flat max indent cs h, display_inner]
  rw [ppFlat_eq_dispChildren max indent cs (fun c _ => FED_any c)
    (fun c hc => by have := width_child_le c cs hc; omega) true]

/-! ## Newline counts of the leaf-wrapping loop -/

theorem countNL_ppLeafGo_wrap (max indent b : Nat) (bs : List Nat) (pos : Nat) (f : Bool)
    (h : max < pos + 3) :
    countNL (ppLeafGo max indent (b :: bs) pos f) =
      1 + countNL (ppLeafGo max indent bs (indent + 4) false) := by
  rw [ppLeafGo_wrap max indent b bs pos f h, countNL_nl, countNL_append,
    countNL_replicate_space, countNL_append, countNL_byteHex]
  omega

theorem countNL_ppLeafGo_first (max indent b : Nat) (bs : List Nat) (pos : Nat)
    (h : ¬ max < pos + 3) :
    countNL (ppLeafGo max indent (b :: bs) pos true) =
      countNL (ppLeafGo max indent bs (pos + 2) false) := by
  rw [ppLeafGo_first max indent b bs pos h, countNL_append, countNL_byteHex]
  omega

theorem countNL_ppLeafGo_sep (max indent b : Nat) (bs : List Nat) (pos : Nat)
    (h : ¬ max < pos + 3) :
    countNL (ppLeafGo max indent (b :: bs) pos false) =
      countNL (ppLeafGo max indent bs (pos + 3) false) := by
  rw [ppLeafGo_sep max indent b bs pos h, countNL_cons_ne _ _ (by decide),
    countNL_append, countNL_byteHex]
  omega

/-- Greedy-wrap invariants at a fixed width: the newline count is
monotone in the starting column, and from any starting column it exceeds
the fresh-line count by at most one. -/
theorem ppLeafGo_NL_mono_reset (max indent : Nat) :
    ∀ bs : List Nat,
      (∀ (p q : Nat) (f : Bool), p ≤ q →
        countNL (ppLeafGo max indent bs p f) ≤ countNL (ppLeafGo max indent bs q f)) ∧
      (∀ (p : Nat) (f : Bool),
        countNL (ppLeafGo max indent bs p f) ≤
          1 + countNL (ppLeafGo max indent bs (indent + 4) false))
  | [] => ⟨fun _ _ _ _ => le_refl _, fun _ _ => by simp [ppLeafGo_nil]⟩
  | b :: bs => by
    obtain ⟨ihM, ihD⟩ := ppLeafGo_NL_mono_reset max indent bs
    constructor
    · intro p q f hpq
      by_cases hq : max < q + 3
      · rw [countNL_ppLeafGo_wrap max indent b bs q f hq]
        by_cases hp : max < p + 3
        · rw [countNL_ppLeafGo_wrap max indent b bs p f hp]
        · cases f
          · rw [countNL_ppLeafGo_sep max indent b bs p hp]
            exact ihD (p + 3) false
          · rw [countNL_ppLeafGo_first max indent b bs p hp]
            exact ihD (p + 2) false
      · have hp : ¬ max < p + 3 := by omega
        cases f
        · rw [countNL_ppLeafGo_sep max indent b bs p hp,
            countNL_ppLeafGo_sep max indent b bs q hq]
          exact ihM (p + 3) (q + 3) false (by omega)
        · rw [countNL_ppLeafGo_first max indent b bs p hp,
            countNL_ppLeafGo_first max indent b bs q hq]
          exact ihM (p + 2) (q + 2) false (by omega)
    · intro p f
      by_cases hi : max < (indent + 4) + 3
      · rw [countNL_ppLeafGo_wrap max indent b bs (indent + 4) false hi]
        by_cases hp : max < p + 3
        · rw [countNL_ppLeafGo_wrap max indent b bs p f hp]
          omega
        · cases f
          · rw [countNL_ppLeafGo_sep max indent b bs p hp]
            have := ihD (p + 3) false
            omega
          · rw [countNL_ppLeafGo_first max indent b bs p hp]
            have := ihD (p + 2) false
            omega
      · rw [countNL_ppLeafGo_sep max indent b bs (indent + 4) hi]
        have hm47 := ihM (indent + 4) (indent + 4 + 3) false (by omega)
        by_cases hp : max < p + 3
        · rw [countNL_ppLeafGo_wrap max indent b bs p f hp]
          omega
        · cases f
          · rw [countNL_ppLeafGo_sep max indent b bs p hp]
            have := ihD (p + 3) false
            omega
          · rw [countNL_ppLeafGo_first max indent b bs p hp]
            have := ihD (p + 2) false
            omega

/-- Greedy-wrap comparison across widths: a larger width budget and a
smaller starting column never produce more newlines. -/
theorem ppLeafGo_NL_anti_max (indent : Nat) :
    ∀ (bs : List Nat) (max1 max2 p1 p2 : Nat) (f : Bool), max1 ≤ max2 → p2 ≤ p1 →
      countNL (ppLeafGo max2 indent bs p2 f) ≤ countNL (ppLeafGo max1 indent bs p1 f)
  | [], _, _, _, _, _, _, _ => le_refl _
  | b :: bs, max1, max2, p1, p2, f, hm, hp => by
    by_cases h2 : max2 < p2 + 3
    · have h1 : max1 < p1 + 3 := by omega
      rw [countNL_ppLeafGo_wrap max2 indent b bs p2 f h2,
        countNL_ppLeafGo_wrap max1 indent b bs p1 f h1]
      have := ppLeafGo_NL_anti_max indent bs max1 max2 (indent + 4) (indent + 4) false hm
        (le_refl _)
      omega
    · by_cases h1 : max1 < p1 + 3
      · rw [countNL_ppLeafGo_wrap max1 indent b bs p1 f h1]
        have hcmp := ppLeafGo_NL_anti_max indent bs max1 max2 (indent + 4) (indent + 4)
          false hm (le_refl _)
        cases f
        · rw [countNL_ppLeafGo_sep max2 indent b bs p2 h2]
          have := (ppLeafGo_NL_mono_reset max2 indent bs).2 (p2 + 3) false
          omega
        · rw [countNL_ppLeafGo_first max2 indent b bs p2 h2]
          have := (ppLeafGo_NL_mono_reset max2 indent bs).2 (p2 + 2) false
          omega
      · cases f
        · rw [countNL_ppLeafGo_sep max2 indent b bs p2 h2,
            countNL_ppLeafGo_sep max1 indent b bs p1 h1]
          exact ppLeafGo_NL_anti_max indent bs max1 max2 (p1 + 3) (p2 + 3) false hm
            (by omega)
        · rw [countNL_ppLeafGo_first max2 indent b bs p2 h2,
            countNL_ppLeafGo_first max1 indent b bs p1 h1]
          exact ppLeafGo_NL_anti_max indent bs max1 max2 (p1 + 2) (p2 + 2) false hm
            (by omega)

/-! ## Width monotonicity of the pretty printer -/

theorem countNL_0x (l : List Char) : countNL ('0' :: 'x' :: l) = countNL l := by
  rw [countNL_cons_ne _ _ (by decide), countNL_cons_ne _ _ (by decide)]

theorem countNL_pp_multi (w indent : Nat) (cs : List Node)
    (h : ¬ indent + (Node.Inner cs)._width ≤ w) :
    countNL (Node._pretty_print w indent (.Inner cs)) =
      1 + countNL (Node.ppMulti w indent cs) := by
  rw [pp_inner_multi w indent cs h, countNL_cons_ne _ _ (by decide), countNL_nl,
    countNL_append, countNL_append, countNL_replicate_space]
  have : countNL [')'] = 0 := by decide
  omega

theorem countNL_ppMulti_cons (w indent : Nat) (c : Node) (cs : List Node) :
    countNL (Node.ppMulti w indent (c :: cs)) =
      countNL (Node._pretty_print w (indent + 4) c) + 1 +
        countNL (Node.ppMulti w indent cs) := by
  rw [ppMulti_cons, countNL_append, countNL_replicate_space, countNL_append, countNL_nl]
  omega

theorem pretty_lines_mono_aux (n : Node) : ∀ (indent w1 w2 : Nat), w1 ≤ w2 →
    countNL (Node._pretty_print w2 indent n) ≤ countNL (Node._pretty_print w1 indent n) := by
  induction n using Node.recMem with
  | hleaf bs =>
    intro i w1 w2 h
    rw [pp_leaf, pp_leaf, countNL_0x, countNL_0x]
    exact ppLeafGo_NL_anti_max i bs w1 w2 (i + 2) (i + 2) true h (le_refl _)
  | hinner cs ih =>
    intro i w1 w2 h
    by_cases hf2 : i + (Node.Inner cs)._width ≤ w2
    · rw [FED_inner cs i w2 hf2, countNL_display]
      exact Nat.zero_le _
    · have hf1 : ¬ i + (Node.Inner cs)._width ≤ w1 := by omega
      rw [countNL_pp_multi w2 i cs hf2, countNL_pp_multi w1 i cs hf1]
      have hlist : ∀ cs2 : List Node,
          (∀ c ∈ cs2, ∀ (i2 w3 w4 : Nat), w3 ≤ w4 →
            countNL (Node._pretty_print w4 i2 c) ≤ countNL (Node._pretty_print w3 i2 c)) →
          countNL (Node.ppMulti w2 i cs2) ≤ countNL (Node.ppMulti w1 i cs2) := by
        intro cs2
        induction cs2 with
        | nil => intro _; rw [ppMulti_nil, ppMulti_nil]
        | cons c cs2 ih2 =>
          intro hihs
          rw [countNL_ppMulti_cons, countNL_ppMulti_cons]
          have h1 := hihs c (by simp) (i + 4) w1 w2 h
          have h2 := ih2 (fun x hx => hihs x (by simp [hx]))
          omega
      have := hlist cs ih
      omega

/-- C5: width monotonicity.  Pretty-printing the same node with a larger
maximum width never produces strictly more lines (newline count plus
one) than with a smaller one. -/
theorem C5_width_monotonic (n : Node) (w1 w2 : Nat) (h : w1 ≤ w2) :
    countNL (n.pretty_print w2) + 1 ≤ countNL (n.pretty_print w1) + 1 := by
  unfold Node.pretty_print
  have := pretty_lines_mono_aux n 0 w1 w2 h
  omega

/-- Witness for C5 at a node and width pair that straddles the
flat/multi-line decision. -/
theorem C5_width_monotonic_witness :
    (5 : Nat) ≤ 80 ∧
    countNL ((Node.Inner [.Leaf [1, 2, 3]]).pretty_print 80) + 1 ≤
      countNL ((Node.Inner [.Leaf [1, 2, 3]]).pretty_print 5) + 1 :=
  ⟨by decide, C5_width_monotonic (Node.Inner [.Leaf [1, 2, 3]]) 5 80 (by decide)⟩

/-! ## Re-parsing wrap-free pretty-printed output -/

theorem NLzero_eq_disp (max indent : Nat) :
    ∀ (bs : List Nat) (pos : Nat) (f : Bool),
      countNL (ppLeafGo max indent bs pos f) = 0 →
      ppLeafGo max indent bs pos f = dispLeafGo bs f
  | [], _, _, _ => rfl
  | b :: bs, pos, f, h0 => by
    by_cases hw : max < pos + 3
    · rw [countNL_ppLeafGo_wrap max indent b bs pos f hw] at h0
      omega
    · cases f
      · rw [countNL_ppLeafGo_sep max indent b bs pos hw] at h0
        rw [ppLeafGo_sep max indent b bs pos hw, dispLeafGo_cons_false,
          NLzero_eq_disp max indent bs (pos + 3) false h0]
      · rw [countNL_ppLeafGo_first max indent b bs pos hw] at h0
        rw [ppLeafGo_first max indent b bs pos hw, dispLeafGo_cons_true,
          NLzero_eq_disp max indent bs (pos + 2) false h0]

theorem wrapFreeB_leaf (max indent : Nat) (bs : List Nat) :
    Node.wrapFreeB max indent (.Leaf bs) =
      (countNL (ppLeafGo max indent bs (indent + 2) true) == 0) := by
  rw [Node.wrapFreeB]

theorem wrapFreeB_inner (max indent : Nat) (cs : List Node) :
    Node.wrapFreeB max indent (.Inner cs) =
      if indent + (Node.Inner cs)._width ≤ max then true
      else Node.wrapFreeBList max (indent + 4) cs := by
  rw [Node.wrapFreeB]

theorem wrapFreeBList_cons (max indent : Nat) (c : Node) (cs : List Node) :
    Node.wrapFreeBList max indent (c :: cs) =
      (c.wrapFreeB max indent && Node.wrapFreeBList max indent cs) := by
  rw [Node.wrapFreeBList]

theorem tokenize_pp (n : Node) : n.wfb = true →
    ∀ (indent max : Nat), Node.wrapFreeB max indent n = true →
      ∀ rest : List Char, sepHeadB rest = true →
        tokenize (Node._pretty_print max indent n ++ rest) =
          (tokenize rest).map (fun ts => n.displayTokens ++ ts) := by
  induction n using Node.recMem with
  | hleaf bs =>
    intro hwf i max hwfree rest hr
    rw [wrapFreeB_leaf] at hwfree
    have h0 : countNL (ppLeafGo max i bs (i + 2) true) = 0 := by
      simpa using hwfree
    have heq : Node._pretty_print max i (.Leaf bs) = (Node.Leaf bs).display := by
      rw [pp_leaf, display_leaf, NLzero_eq_disp max i bs (i + 2) true h0]
    rw [heq]
    exact tokenize_display _ hwf rest hr
  | hinner cs ih =>
    intro hwf i max hwfree rest hr
    by_cases hfl : i + (Node.Inner cs)._width ≤ max
    · rw [FED_inner cs i max hfl]
      exact tokenize_display _ hwf rest hr
    · have hwl : Node.wrapFreeBList max (i + 4) cs = true := by
        rw [wrapFreeB_inner, if_neg hfl] at hwfree
        exact hwfree
      obtain ⟨-, hcs⟩ := (wfb_inner cs).1 hwf
      have hlist : ∀ cs2 : List Node, (∀ c ∈ cs2, c.wfb = true) →
          (∀ c ∈ cs2, c.wfb = true → ∀ (i2 m2 : Nat), Node.wrapFreeB m2 i2 c = true →
            ∀ r2 : List Char, sepHeadB r2 = true →
              tokenize (Node._pretty_print m2 i2 c ++ r2) =
                (tokenize r2).map (fun ts => c.displayTokens ++ ts)) →
          Node.wrapFreeBList max (i + 4) cs2 = true →
          ∀ rest2 : List Char, sepHeadB rest2 = true →
            tokenize (Node.ppMulti max i cs2 ++
                (List.replicate i ' ' ++ (')' :: rest2))) =
              (tokenize rest2).map
                (fun ts => Node.displayTokensList cs2 ++ (Token.RParen :: ts)) := by
        intro cs2
        induction cs2 with
        | nil =>
          intro _ _ _ rest2 _
          rw [ppMulti_nil, List.nil_append, tokenize_replicate_space, tokenize_rparen,
            displayTokensList_nil]
          cases tokenize rest2 <;> rfl
        | cons c cs2 ih2 =>
          intro hw2 hihs hwl2 rest2 hr2
          rw [wrapFreeBList_cons, Bool.and_eq_true] at hwl2
          rw [ppMulti_cons]
          simp only [List.append_assoc, List.cons_append]
          rw [tokenize_replicate_space]
          rw [hihs c (by simp) (hw2 c (by simp)) (i + 4) max hwl2.1
            ('\n' :: (Node.ppMulti max i cs2 ++ (List.replicate i ' ' ++ (')' :: rest2))))
            (sepHeadB_newline _)]
          rw [tokenize_newline]
          rw [ih2 (fun x hx => hw2 x (by simp [hx])) (fun x hx => hihs x (by simp [hx]))
            hwl2.2 rest2 hr2]
          rw [exmap_exmap, displayTokensList_cons]
          cases tokenize rest2 <;> simp
      have hmain := hlist cs hcs (fun c hc => ih c hc) hwl rest hr
      rw [pp_inner_multi _ _ _ hfl]
      simp only [List.cons_append, List.append_assoc, List.singleton_append,
        List.nil_append]
      rw [tokenize_lparen, tokenize_newline]
      rw [hmain, exmap_exmap, displayTokens_inner]
      cases tokenize rest <;> simp

/-- C2 counterexample: pretty-printing `Leaf [0x12, 0x34]` at width 4
wraps the leaf; the continuation line starts with the bare hex digits
`12`, which the tokenizer rejects, so the output does not re-parse to
the original node. -/
theorem C2_counterexample :
    ParseResult.parse ((Node.Leaf [18, 52]).pretty_print 4) ≠
      ParseResult.Ok (Node.Leaf [18, 52]) := by
  have hpp : (Node.Leaf [18, 52]).pretty_print 4 =
      ['0', 'x', '\n', ' ', ' ', '1', '2', '\n', ' ', ' ', '3', '4'] := by
    unfold Node.pretty_print
    rw [pp_leaf]
    decide
  have htok : tokenize ['0', 'x', '\n', ' ', ' ', '1', '2', '\n', ' ', ' ', '3', '4'] =
      .error "Unexpected character!" := by
    rw [tokenize_literal_pro]
    rw [show scanHex ['\n', ' ', ' ', '1', '2', '\n', ' ', ' ', '3', '4'] [] none =
      ([], none, ['\n', ' ', ' ', '1', '2', '\n', ' ', ' ', '3', '4']) from by decide]
    dsimp only
    rw [if_neg (by decide)]
    rw [tokenize_newline, tokenize_space, tokenize_space,
      tokenize_other_cons '1' _ (by decide) (by decide) (by decide) (by decide)]
    rfl
  unfold ParseResult.parse
  rw [hpp, htok]
  intro h
  cases h

/-- C2 as amended: whenever no leaf wraps (no line break occurs inside a
leaf literal), parsing the pretty-printed text of a (well-formed) node
returns exactly that node. -/
theorem C2_pretty_reparse (n : Node) (w : Nat) (hwf : n.wfb = true)
    (hfree : Node.wrapFreeB w 0 n = true) :
    ParseResult.parse (n.pretty_print w) = .Ok n := by
  have htok : tokenize (n.pretty_print w) = .ok n.displayTokens := by
    have := tokenize_pp n hwf 0 w hfree [] rfl
    rw [List.append_nil] at this
    unfold Node.pretty_print
    rw [this, tokenize_nil, exmap_ok, List.append_nil]
  unfold ParseResult.parse
  rw [htok]
  simp [parseTokens_displayTokens n]

/-- Witness for C2 as amended, at a node printed multi-line without any
leaf wrap. -/
theorem C2_pretty_reparse_witness :
    (Node.Inner [.Leaf [], .Inner [.Leaf [2, 3, 4], .Inner []], .Leaf [3, 4]]).wfb = true ∧
    Node.wrapFreeB 18 0
      (Node.Inner [.Leaf [], .Inner [.Leaf [2, 3, 4], .Inner []], .Leaf [3, 4]]) = true ∧
    ParseResult.parse
        ((Node.Inner [.Leaf [], .Inner [.Leaf [2, 3, 4], .Inner []], .Leaf [3, 4]]).pretty_print 18) =
      .Ok (Node.Inner [.Leaf [], .Inner [.Leaf [2, 3, 4], .Inner []], .Leaf [3, 4]]) := by
  have hwf : (Node.Inner [.Leaf [], .Inner [.Leaf [2, 3, 4], .Inner []], .Leaf [3, 4]]).wfb
      = true := by
    simp [Node.wfb, Node.wfbList]
  have hfree : Node.wrapFreeB 18 0
      (Node.Inner [.Leaf [], .Inner [.Leaf [2, 3, 4], .Inner []], .Leaf [3, 4]]) = true := by
    simp [Node.wrapFreeB, Node.wrapFreeBList, Node._width, Node.widthSum, countNL,
      ppLeafGo, byteHex, hexDigitChar]
  exact ⟨hwf, hfree, C2_pretty_reparse _ 18 hwf hfree⟩

end Baum
